import Mathlib

/-!
# Verification of the markdown-diff-prosemirror transformation pipeline

This file is a shallow embedding, in Lean 4, of the core of the
markdown-diff-prosemirror library: the Markdown block parser
(src/parser.ts), the inline tokenizer, the ProseMirror document analyzer
(src/analyzer.ts), the block differ / diff-to-operation mapper / operation
applier (src/mapper.ts), and the transformer entry points
(src/transformer.ts).  JavaScript strings are modelled by Lean strings,
with the handful of JS string primitives re-implemented structurally over
the character list so that all definitions are executable and reduce inside
the kernel.  JS exceptions are modelled with Option / Except values, and
the in-place tree mutation performed by the operation applier is modelled
twice: once at the value level (functional update along a path), and once
over an explicit object heap, which makes the deep-clone/aliasing behaviour
of the JS code expressible.

Definitions mirror the TypeScript source function by function; theorems
about them follow at the end of the file.
-/

/-! ## JS string primitives, modelled structurally -/

/-- Splitting a character list at every occurrence of a separator
character, keeping empty segments, as JS String.prototype.split does:
the result always has one more segment than there are separators. -/
def splitCharsOn (sep : Char) : List Char → List (List Char)
  | [] => [[]]
  | d :: rest =>
    let r := splitCharsOn sep rest
    if d = sep then [] :: r
    else
      match r with
      | first :: others => (d :: first) :: others
      | [] => [[d]]

/-- JS s.split('\n'). -/
def jsSplitNewlines (s : String) : List String :=
  (splitCharsOn '\n' s.data).map List.asString

/-- JS s.startsWith(pre). -/
def jsStartsWith (s pre : String) : Bool :=
  pre.data.isPrefixOf s.data

/-- The ASCII whitespace characters matched by the JS regex class \s
(the Unicode members of the class never occur in the inputs the
library manipulates). -/
def isJsWhitespace (c : Char) : Bool :=
  c = ' ' || c = '\t' || c = '\n' || c = '\r' || c = '\x0b' || c = '\x0c'

/-- JS s.trim(). -/
def jsTrim (s : String) : String :=
  ((s.data.dropWhile isJsWhitespace).reverse.dropWhile isJsWhitespace).reverse.asString

/-- JS lines.join('\n') (Array.prototype.join with separator "\n"). -/
def joinLines : List String → String
  | [] => ""
  | [l] => l
  | l :: rest => l ++ "\n" ++ joinLines rest

/-- JS \w character class: letters, digits, underscore. -/
def isWordChar (c : Char) : Bool :=
  c.isAlpha || c.isDigit || c = '_'

/-- JS parseInt on a non-empty string of decimal digits. -/
def digitsToNat (ds : List Char) : Nat :=
  ds.foldl (fun acc d => acc * 10 + (d.toNat - '0'.toNat)) 0

/-! ## Data model (src/types.ts) -/

/-- A dynamically typed attribute value: the library only ever stores
strings and numbers in node/mark attribute records. -/
inductive AttrVal where
  | str (s : String)
  | num (n : Int)
deriving Repr, DecidableEq

/-- An attrs record (Record of string keys to dynamic values), modelled as
the insertion-ordered key/value list, which is exactly what
JSON.stringify equality observes. -/
abbrev Attrs := List (String × AttrVal)

/-- An inline formatting mark: a type tag with an optional attrs record
(absent field modelled as none). -/
structure Mark where
  type : String
  attrs : Option Attrs := none
deriving Repr, DecidableEq

/-- An inline token produced by MarkdownParser.parseInlineMarkdown.  Every
token the parser constructs carries a (possibly empty) text payload, so
text is modelled as a plain string; marks is absent (none) on plain
characters. -/
structure InlineToken where
  type : String
  text : String
  marks : Option (List Mark) := none
deriving Repr, DecidableEq

/-- A Markdown block (types.ts MarkdownBlock). -/
structure MarkdownBlock where
  type : String
  content : List String
  startLine : Nat
  endLine : Nat
  level : Option Nat := none
  attrs : Option Attrs := none
deriving Repr, DecidableEq

/-- A ProseMirror node (types.ts ProseMirrorNode / ProseMirrorDocument):
a duck-typed record whose fields are all optional.  A document is simply a
node whose type is "doc" and whose content is present. -/
inductive PMNode where
  | mk (type : String) (attrs : Option Attrs) (content : Option (List PMNode))
      (text : Option String) (marks : Option (List Mark))

def PMNode.type : PMNode → String
  | .mk t _ _ _ _ => t

def PMNode.attrs : PMNode → Option Attrs
  | .mk _ a _ _ _ => a

def PMNode.content : PMNode → Option (List PMNode)
  | .mk _ _ c _ _ => c

def PMNode.text : PMNode → Option String
  | .mk _ _ _ x _ => x

def PMNode.marks : PMNode → Option (List Mark)
  | .mk _ _ _ _ m => m

/-- Replace the content field of a node (the functional rendering of the
JS in-place assignment node.content = ...). -/
def PMNode.setContent : PMNode → Option (List PMNode) → PMNode
  | .mk t a _ x m, c => .mk t a c x m

/-- Replace the attrs field of a node. -/
def PMNode.setAttrs : PMNode → Option Attrs → PMNode
  | .mk t _ c x m, a => .mk t a c x m

/-- A content change inside a modified block (types.ts ContentChange). -/
structure ContentChange where
  type : String
  position : Nat
  length : Nat
  oldText : String
  newText : String
deriving Repr, DecidableEq

/-- A block-level diff operation (types.ts BlockDiffOperation).  The type
tag is one of insert_block / delete_block / modify_block / replace_block. -/
structure BlockDiffOperation where
  type : String
  position : Nat
  originalBlock : Option MarkdownBlock := none
  newBlock : Option MarkdownBlock := none
  contentChanges : Option (List ContentChange) := none
deriving Repr, DecidableEq

/-- A tree-edit operation (types.ts MarkdownDiffOperation). -/
structure MarkdownDiffOperation where
  type : String
  markdownPosition : Nat
  prosemirrorPath : Option (List Nat) := none
  length : Option Nat := none
  content : Option String := none
  originalContent : Option String := none
  nodeType : Option String := none
  nodeAttrs : Option Attrs := none
deriving Repr, DecidableEq

/-- The statistics record of a TransformResult. -/
structure Statistics where
  nodesModified : Nat
  textChanges : Nat
  structuralChanges : Nat
deriving Repr, DecidableEq

/-- The result record returned by transform (types.ts TransformResult). -/
structure TransformResult where
  success : Bool
  newDocument : PMNode
  operations : List MarkdownDiffOperation
  errors : List String
  statistics : Statistics

/-! ## Block parser (src/parser.ts, MarkdownParser) -/

namespace MarkdownParser

/-- The classification record returned by MarkdownParser.identifyBlock. -/
structure BlockInfo where
  type : String
  level : Option Nat := none
  attrs : Option Attrs := none
  startNew : Bool

/-- The heading regex (#{1,6})\s+(.+)$ anchored at the start: succeeds
exactly when the line starts with one to six hash characters followed by a
whitespace character and at least one further character; returns the
number of hashes. -/
def headingLevel (line : String) : Option Nat :=
  let cs := line.data
  let hashes := cs.takeWhile (· = '#')
  match cs.drop hashes.length with
  | c :: _ :: _ =>
    if 1 ≤ hashes.length ∧ hashes.length ≤ 6 ∧ isJsWhitespace c then
      some hashes.length
    else none
  | _ => none

/-- The unordered-list regex \s*[-*+]\s+ anchored at the start. -/
def isUnorderedListLine (line : String) : Bool :=
  match line.data.dropWhile isJsWhitespace with
  | c :: d :: _ => (c = '-' || c = '*' || c = '+') && isJsWhitespace d
  | _ => false

/-- The ordered-list regex \s*(\d+)\.\s+ anchored at the start; returns
parseInt of the digit group. -/
def orderedListNumber (line : String) : Option Nat :=
  let cs := line.data.dropWhile isJsWhitespace
  let digits := cs.takeWhile Char.isDigit
  match digits, cs.drop digits.length with
  | _ :: _, '.' :: d :: _ => if isJsWhitespace d then some (digitsToNat digits) else none
  | _, _ => none

/-- The attrs attached to a code-fence line: the optional \w+ language tag
after the three backticks ({} when absent, { language } when present). -/
def codeFenceAttrs (line : String) : Attrs :=
  let lang := (line.data.drop 3).takeWhile isWordChar
  if lang.isEmpty then [] else [("language", AttrVal.str lang.asString)]

/-- The horizontal-rule regex [-*_]{3,}$ anchored at both ends. -/
def isHorizontalRuleLine (line : String) : Bool :=
  line.data.length ≥ 3 && line.data.all (fun c => c = '-' || c = '*' || c = '_')

/-- MarkdownParser.identifyBlock: classify a single line, with the exact
pattern precedence of the source (heading, unordered list, ordered list,
code fence, blockquote, blank line, horizontal rule, paragraph). -/
def identifyBlock (line : String) : BlockInfo :=
  match headingLevel line with
  | some level =>
    { type := "heading", level := some level,
      attrs := some [("level", AttrVal.num level)], startNew := true }
  | none =>
  if isUnorderedListLine line then
    { type := "list_item", attrs := some [("listType", AttrVal.str "bullet")],
      startNew := false }
  else match orderedListNumber line with
  | some n =>
    { type := "list_item",
      attrs := some [("listType", AttrVal.str "ordered"), ("order", AttrVal.num n)],
      startNew := false }
  | none =>
  if jsStartsWith line "```" then
    { type := "code_block", attrs := some (codeFenceAttrs line), startNew := true }
  else if jsStartsWith line ">" then
    { type := "blockquote", startNew := false }
  else if jsTrim line = "" then
    { type := "empty", startNew := true }
  else if isHorizontalRuleLine line then
    { type := "horizontal_rule", startNew := true }
  else
    { type := "paragraph", startNew := false }

/-- The block freshly opened for a line (the object literal assigned to
currentBlock in parseToBlocks). -/
def newBlockFor (line : String) (idx : Nat) (info : BlockInfo) : MarkdownBlock :=
  { type := info.type, content := [line], startLine := idx, endLine := idx,
    level := info.level, attrs := info.attrs }

/-- The loop of MarkdownParser.parseToBlocks: cur is the open
currentBlock (none before the first line), idx the current line index;
a block is flushed whenever the classified type changes or the
classification demands a fresh block, and the trailing open block is
flushed at the end. -/
def parseToBlocksGo : List String → Nat → Option MarkdownBlock → List MarkdownBlock
  | [], _, none => []
  | [], _, some cur => [cur]
  | line :: rest, idx, none =>
    parseToBlocksGo rest (idx + 1) (some (newBlockFor line idx (identifyBlock line)))
  | line :: rest, idx, some cur =>
    let info := identifyBlock line
    if info.type ≠ cur.type ∨ info.startNew then
      cur :: parseToBlocksGo rest (idx + 1) (some (newBlockFor line idx info))
    else
      parseToBlocksGo rest (idx + 1)
        (some { cur with content := cur.content ++ [line], endLine := idx })

/-- MarkdownParser.parseToBlocks. -/
def parseToBlocks (markdown : String) : List MarkdownBlock :=
  parseToBlocksGo (jsSplitNewlines markdown) 0 none

/-! ### Inline tokenizer (MarkdownParser.parseInlineMarkdown) -/

/-- The non-greedy search performed by the regexes ^\*\*(.*?)\*\* and
^\*(.*?)\*: the smallest index at which the closing delimiter starts, with
no newline before it (the JS dot does not match newlines); none when no
such index exists. -/
def findCloser (delim : List Char) : List Char → Option Nat
  | [] => if delim.isPrefixOf ([] : List Char) then some 0 else none
  | c :: rest =>
    if delim.isPrefixOf (c :: rest) then some 0
    else if c = '\n' then none
    else (findCloser delim rest).map (· + 1)

/-- The regex ^\*\*(.*?)\*\* : returns the captured content and the total
number of characters consumed. -/
def strongMatch (cs : List Char) : Option (String × Nat) :=
  if ['*', '*'].isPrefixOf cs then
    match findCloser ['*', '*'] (cs.drop 2) with
    | some k => some (((cs.drop 2).take k).asString, 2 + k + 2)
    | none => none
  else none

/-- The regex ^\*(.*?)\* . -/
def emMatch (cs : List Char) : Option (String × Nat) :=
  if ['*'].isPrefixOf cs then
    match findCloser ['*'] (cs.drop 1) with
    | some k => some (((cs.drop 1).take k).asString, 1 + k + 1)
    | none => none
  else none

/-- The regex with a backtick-delimited non-empty body (inline code):
the greedy [^x]+ body runs to the first closing delimiter. -/
def codeMatch (cs : List Char) : Option (String × Nat) :=
  match cs with
  | '`' :: rest =>
    let body := rest.takeWhile (· ≠ '`')
    if body.isEmpty then none
    else
      match rest.drop body.length with
      | '`' :: _ => some (body.asString, 1 + body.length + 1)
      | _ => none
  | _ => none

/-- The link regex ^\[([^\]]+)\]\(([^)]+)\) : returns label, url and the
total number of characters consumed. -/
def linkMatch (cs : List Char) : Option (String × String × Nat) :=
  match cs with
  | '[' :: rest =>
    let label := rest.takeWhile (· ≠ ']')
    if label.isEmpty then none
    else
      match rest.drop label.length with
      | ']' :: '(' :: rest2 =>
        let url := rest2.takeWhile (· ≠ ')')
        if url.isEmpty then none
        else
          match rest2.drop url.length with
          | ')' :: _ =>
            some (label.asString, url.asString, 1 + label.length + 2 + url.length + 1)
          | _ => none
      | _ => none
  | _ => none

/-- The scanning loop of parseInlineMarkdown.  Each iteration consumes at
least one character, so the input length is enough fuel for the loop to
run to completion; the fuel only makes the recursion structural. -/
def parseInlineGo : Nat → List Char → List InlineToken
  | 0, _ => []
  | _, [] => []
  | fuel + 1, cs =>
    match strongMatch cs with
    | some (body, consumed) =>
      { type := "text", text := body, marks := some [{ type := "strong" }] }
        :: parseInlineGo fuel (cs.drop consumed)
    | none =>
    match emMatch cs with
    | some (body, consumed) =>
      { type := "text", text := body, marks := some [{ type := "em" }] }
        :: parseInlineGo fuel (cs.drop consumed)
    | none =>
    match codeMatch cs with
    | some (body, consumed) =>
      { type := "text", text := body, marks := some [{ type := "code" }] }
        :: parseInlineGo fuel (cs.drop consumed)
    | none =>
    match linkMatch cs with
    | some (label, url, consumed) =>
      { type := "text", text := label,
        marks := some [{ type := "link", attrs := some [("href", AttrVal.str url)] }] }
        :: parseInlineGo fuel (cs.drop consumed)
    | none =>
    match cs with
    | c :: rest => { type := "text", text := c.toString } :: parseInlineGo fuel rest
    | [] => []

/-- MarkdownParser.marksEqual on present mark lists: same length and
element-wise equal type and attrs (attrs compared by JSON.stringify, i.e.
structurally on the ordered record). -/
def marksListEqual : List Mark → List Mark → Bool
  | [], [] => true
  | m1 :: r1, m2 :: r2 =>
    m1.type == m2.type && decide (m1.attrs = m2.attrs) && marksListEqual r1 r2
  | _, _ => false

/-- MarkdownParser.marksEqual: both lists absent compare equal, one absent
compares unequal, otherwise compare element-wise. -/
def marksEqual : Option (List Mark) → Option (List Mark) → Bool
  | none, none => true
  | some m1, some m2 => marksListEqual m1 m2
  | _, _ => false

/-- The loop of MarkdownParser.mergeConsecutiveTextTokens: last is the
final element of the merged list built so far (the only element the loop
can still extend); a token with the same mark set is absorbed into it,
anything else flushes it. -/
def mergeTokensGo : InlineToken → List InlineToken → List InlineToken
  | last, [] => [last]
  | last, t :: rest =>
    if last.type == "text" && t.type == "text" && marksEqual last.marks t.marks then
      mergeTokensGo { last with text := last.text ++ t.text } rest
    else
      last :: mergeTokensGo t rest

/-- MarkdownParser.mergeConsecutiveTextTokens. -/
def mergeConsecutiveTextTokens : List InlineToken → List InlineToken
  | [] => []
  | t :: rest => mergeTokensGo t rest

/-- MarkdownParser.parseInlineMarkdown. -/
def parseInlineMarkdown (text : String) : List InlineToken :=
  mergeConsecutiveTextTokens (parseInlineGo text.length text.data)

end MarkdownParser

/-! ## Document analyzer (src/analyzer.ts, ProseMirrorAnalyzer) -/

/-- A flattened-text position record (types.ts, the textPositions entries;
the field named end in the source is named stop here because end is a Lean
keyword). -/
structure TextPosition where
  path : List Nat
  start : Nat
  stop : Nat
  text : String
deriving Repr, DecidableEq

/-- Derived per-node metadata (types.ts NodeInfo). -/
structure NodeInfo where
  type : String
  path : List Nat
  textOffset : Nat
  textLength : Nat
  attrs : Option Attrs := none
  children : List (List Nat)
deriving Repr, DecidableEq

/-- The analysis record (types.ts DocumentAnalysis); the Map is modelled
as its insertion-ordered entry list (all inserted keys are distinct paths,
so no overwriting occurs). -/
structure DocumentAnalysis where
  nodeMap : List (String × NodeInfo)
  textPositions : List TextPosition
  blockStructure : List NodeInfo

namespace ProseMirrorAnalyzer

/-- path.join('.'). -/
def pathKey : List Nat → String
  | [] => ""
  | [i] => toString i
  | i :: rest => toString i ++ "." ++ pathKey rest

/-- The block-level node types recognized by the analyzer. -/
def blockTypes : List String :=
  ["paragraph", "heading", "list_item", "code_block", "blockquote"]

/-- The tail of ProseMirrorAnalyzer.traverseNode: record the node in
nodeMap and, when block-level, in blockStructure, then return the updated
running offset. -/
def recordNode (info : NodeInfo) (offset : Nat) (analysis : DocumentAnalysis) :
    Nat × DocumentAnalysis :=
  let analysis1 := { analysis with nodeMap := analysis.nodeMap ++ [(pathKey info.path, info)] }
  let analysis2 :=
    if blockTypes.contains info.type then
      { analysis1 with blockStructure := analysis1.blockStructure ++ [info] }
    else analysis1
  (offset, analysis2)

mutual

/-- ProseMirrorAnalyzer.traverseNode: one depth-first pass threading the
running flattened-text offset and the analysis record (the source mutates
the record in place; here it is passed and returned). -/
def traverseNode (node : PMNode) (path : List Nat) (textOffset : Nat)
    (analysis : DocumentAnalysis) : Nat × DocumentAnalysis :=
  match node with
  | .mk t a c x _ =>
    if x.getD "" ≠ "" then
      let txt := x.getD ""
      let info : NodeInfo :=
        { type := t, path := path, textOffset := textOffset, textLength := txt.length,
          attrs := a, children := [] }
      let analysis1 :=
        { analysis with textPositions :=
            analysis.textPositions ++ [⟨path, textOffset, textOffset + txt.length, txt⟩] }
      recordNode info (textOffset + txt.length) analysis1
    else
      match c with
      | some cs =>
        let r := traverseChildren cs path 0 textOffset analysis
        let info : NodeInfo :=
          { type := t, path := path, textOffset := textOffset,
            textLength := r.1 - textOffset, attrs := a, children := r.2.2 }
        recordNode info r.1 r.2.1
      | none =>
        let info : NodeInfo :=
          { type := t, path := path, textOffset := textOffset, textLength := 0,
            attrs := a, children := [] }
        recordNode info textOffset analysis

/-- The forEach over node.content inside traverseNode: returns the final
child offset, the updated analysis and the accumulated child paths. -/
def traverseChildren (children : List PMNode) (path : List Nat) (index : Nat)
    (offset : Nat) (analysis : DocumentAnalysis) :
    Nat × DocumentAnalysis × List (List Nat) :=
  match children with
  | [] => (offset, analysis, [])
  | child :: rest =>
    let childPath := path ++ [index]
    let r := traverseNode child childPath offset analysis
    let rr := traverseChildren rest path (index + 1) r.1 r.2
    (rr.1, rr.2.1, childPath :: rr.2.2)

end

/-- ProseMirrorAnalyzer.analyzeDocument. -/
def analyzeDocument (doc : PMNode) : DocumentAnalysis :=
  (traverseNode doc [] 0 ⟨[], [], []⟩).2

end ProseMirrorAnalyzer

/-! ## Diff computation, operation mapping and application
(src/mapper.ts, MarkdownToProseMirrorMapper) -/

namespace MarkdownToProseMirrorMapper

/-- MarkdownToProseMirrorMapper.blocksEqual: type, content and attrs
compared (content and attrs via JSON.stringify, i.e. structurally;
startLine / endLine / level are not compared). -/
def blocksEqual (block1 block2 : MarkdownBlock) : Bool :=
  block1.type == block2.type
    && decide (block1.content = block2.content)
    && decide (block1.attrs = block2.attrs)

/-- MarkdownToProseMirrorMapper.computeBlockContentDiff: whole-block
replacement as a single text_change when the joined content differs. -/
def computeBlockContentDiff (originalBlock modifiedBlock : MarkdownBlock) :
    List ContentChange :=
  let originalContent := joinLines originalBlock.content
  let modifiedContent := joinLines modifiedBlock.content
  if originalContent = modifiedContent then []
  else
    [{ type := "text_change", position := 0, length := originalContent.length,
       oldText := originalContent, newText := modifiedContent }]

/-- The two-pointer loop of computeBlockDiff: the remaining suffixes of
both block lists plus the original-side index i (the only index recorded
in the emitted operations; the modified-side index j is never stored).
Once the original side is exhausted, i no longer moves and every
remaining modified block becomes one insert_block at position i. -/
def computeBlockDiffGo :
    List MarkdownBlock → List MarkdownBlock → Nat → List BlockDiffOperation
  | [], ms, i =>
    ms.map fun newBlock =>
      { type := "insert_block", position := i, newBlock := some newBlock }
  | originalBlock :: os, [], i =>
    { type := "delete_block", position := i, originalBlock := some originalBlock }
      :: computeBlockDiffGo os [] (i + 1)
  | originalBlock :: os, modifiedBlock :: ms, i =>
    if blocksEqual originalBlock modifiedBlock then
      computeBlockDiffGo os ms (i + 1)
    else if originalBlock.type == modifiedBlock.type then
      let contentDiff := computeBlockContentDiff originalBlock modifiedBlock
      (if contentDiff.length > 0 then
        [{ type := "modify_block", position := i, originalBlock := some originalBlock,
           newBlock := some modifiedBlock, contentChanges := some contentDiff }]
      else [])
        ++ computeBlockDiffGo os ms (i + 1)
    else
      { type := "replace_block", position := i, originalBlock := some originalBlock,
        newBlock := some modifiedBlock }
        :: computeBlockDiffGo os ms (i + 1)

/-- MarkdownToProseMirrorMapper.computeBlockDiff. -/
def computeBlockDiff (originalBlocks modifiedBlocks : List MarkdownBlock) :
    List BlockDiffOperation :=
  computeBlockDiffGo originalBlocks modifiedBlocks 0

/-- MarkdownToProseMirrorMapper.calculateMarkdownPosition: sum of line
lengths plus one newline each, over the lines before the block's start
line. -/
def calculateMarkdownPosition (block : MarkdownBlock) (markdown : String) : Nat :=
  let lines := jsSplitNewlines markdown
  ((lines.take block.startLine).map (fun line => line.length + 1)).sum

/-- MarkdownToProseMirrorMapper.mapBlockTypeToProseMirror: fixed lookup
table with default paragraph. -/
def mapBlockTypeToProseMirror (markdownType : String) : String :=
  if markdownType = "heading" then "heading"
  else if markdownType = "paragraph" then "paragraph"
  else if markdownType = "list_item" then "list_item"
  else if markdownType = "code_block" then "code_block"
  else if markdownType = "blockquote" then "blockquote"
  else if markdownType = "horizontal_rule" then "horizontal_rule"
  else "paragraph"

/-- The insert_node operation built for an inserted block (the nodeAttrs
field is set exactly when the block carries attrs). -/
def insertOperationFor (newBlock : MarkdownBlock) (position : Nat)
    (sourceMarkdown : String) : MarkdownDiffOperation :=
  { type := "insert_node",
    markdownPosition := calculateMarkdownPosition newBlock sourceMarkdown,
    prosemirrorPath := some [position],
    nodeType := some (mapBlockTypeToProseMirror newBlock.type),
    content := some (joinLines newBlock.content),
    nodeAttrs := newBlock.attrs }

/-- MarkdownToProseMirrorMapper.mapDiffToProseMirror: translate each
block-diff operation into zero or more tree-edit operations.  Note that
the insert_node built for an insert_block computes its markdownPosition
against the original markdown (as the source does), and only the
delete / modify / replace cases consult the analyzer's blockStructure,
by plain index. -/
def mapDiffToProseMirror :
    List BlockDiffOperation → DocumentAnalysis → String → String →
    List MarkdownDiffOperation
  | [], _, _, _ => []
  | diff :: rest, docAnalysis, originalMarkdown, modifiedMarkdown =>
    (if diff.type = "insert_block" then
      match diff.newBlock with
      | some newBlock => [insertOperationFor newBlock diff.position originalMarkdown]
      | none => []
    else if diff.type = "delete_block" then
      match docAnalysis.blockStructure[diff.position]?, diff.originalBlock with
      | some blockInfo, some originalBlock =>
        [{ type := "delete_node",
           markdownPosition := calculateMarkdownPosition originalBlock originalMarkdown,
           prosemirrorPath := some blockInfo.path,
           nodeType := some blockInfo.type }]
      | _, _ => []
    else if diff.type = "modify_block" then
      match docAnalysis.blockStructure[diff.position]?, diff.contentChanges with
      | some blockInfo, some changes =>
        changes.map fun change =>
          { type := "replace",
            markdownPosition := blockInfo.textOffset + change.position,
            prosemirrorPath := some blockInfo.path,
            length := some change.length,
            originalContent := some change.oldText,
            content := some change.newText }
      | _, _ => []
    else if diff.type = "replace_block" then
      match docAnalysis.blockStructure[diff.position]?, diff.originalBlock, diff.newBlock with
      | some blockInfo, some originalBlock, some newBlock =>
        [{ type := "delete_node",
           markdownPosition := calculateMarkdownPosition originalBlock originalMarkdown,
           prosemirrorPath := some blockInfo.path,
           nodeType := some blockInfo.type },
         insertOperationFor newBlock diff.position modifiedMarkdown]
      | _, _, _ => []
    else [])
      ++ mapDiffToProseMirror rest docAnalysis originalMarkdown modifiedMarkdown

/-! ### The operation applier, value level -/

/-- MarkdownToProseMirrorMapper.parseContentToNodes. -/
def parseContentToNodes (text : String) : List PMNode :=
  if jsTrim text = "" then []
  else
    (MarkdownParser.parseInlineMarkdown text).map fun token =>
      PMNode.mk token.type none none
        (if token.text ≠ "" then some token.text else none)
        (match token.marks with
         | some ms => if ms.length > 0 then some ms else none
         | none => none)

/-- MarkdownToProseMirrorMapper.getNodeAtPath: walk the path through the
content lists; none models the exception thrown on an invalid path. -/
def getNodeAtPath (node : PMNode) : List Nat → Option PMNode
  | [] => some node
  | index :: rest =>
    match node.content with
    | some cs =>
      match cs[index]? with
      | some child => getNodeAtPath child rest
      | none => none
    | none => none

/-- The functional rendering of resolve-then-mutate-in-place: walk to the
node at the path, apply f to it, and rebuild the spine.  It succeeds on
exactly the paths getNodeAtPath resolves. -/
def updateAtPath (node : PMNode) : List Nat → (PMNode → PMNode) → Option PMNode
  | [], f => some (f node)
  | index :: rest, f =>
    match node.content with
    | some cs =>
      match cs[index]? with
      | some child =>
        (updateAtPath child rest f).map fun child' =>
          node.setContent (some (cs.set index child'))
      | none => none
    | none => none

/-- JS Array.prototype.splice(index, 0, node): insertion with the index
clamped to the array length. -/
def spliceInsert (cs : List PMNode) (index : Nat) (node : PMNode) : List PMNode :=
  cs.take index ++ [node] ++ cs.drop index

/-- The node constructed by insertNode from an operation: type from
nodeType (default paragraph), attrs from nodeAttrs when present, content
parsed from the operation's text when that text is truthy (non-empty). -/
def buildInsertedNode (operation : MarkdownDiffOperation) : PMNode :=
  PMNode.mk (operation.nodeType.getD "paragraph") operation.nodeAttrs
    (some (match operation.content with
           | some s => if s = "" then [] else parseContentToNodes s
           | none => []))
    none none

/-- MarkdownToProseMirrorMapper.insertNode: resolve the parent (path minus
last component), then splice the new node at the last component (0 when
the path is empty); a parent without content is silently left unchanged;
an unresolvable parent is the thrown-exception case (none). -/
def insertNode (doc : PMNode) (path : List Nat) (operation : MarkdownDiffOperation) :
    Option PMNode :=
  let index := path.getLast?.getD 0
  updateAtPath doc path.dropLast fun parent =>
    match parent.content with
    | some cs => parent.setContent (some (spliceInsert cs index (buildInsertedNode operation)))
    | none => parent

/-- MarkdownToProseMirrorMapper.deleteNode: an empty path returns
immediately; otherwise resolve the parent and splice out one child at the
last component when it is in range (out of range or missing content is a
silent no-op; an unresolvable parent is the thrown-exception case). -/
def deleteNode (doc : PMNode) (path : List Nat) : Option PMNode :=
  if path.isEmpty then some doc
  else
    updateAtPath doc path.dropLast fun parent =>
      match parent.content, path.getLast? with
      | some cs, some index =>
        if index < cs.length then parent.setContent (some (cs.eraseIdx index))
        else parent
      | _, _ => parent

/-- MarkdownToProseMirrorMapper.replaceTextContent: resolve the node at
the full path and replace its content with freshly tokenized inline
content (nodes without a content field are left unchanged). -/
def replaceTextContent (doc : PMNode) (path : List Nat)
    (operation : MarkdownDiffOperation) : Option PMNode :=
  updateAtPath doc path fun node =>
    match node.content with
    | some _ => node.setContent (some (parseContentToNodes (operation.content.getD "")))
    | none => node

/-- The spread-merge of two attrs records performed by modifyNode:
keys of the old record in order with values overridden by the new record,
followed by the new keys not present in the old record. -/
def mergeAttrs (old new : Attrs) : Attrs :=
  (old.map fun kv => (kv.1, ((new.lookup kv.1).getD kv.2)))
    ++ new.filter fun kv => (old.lookup kv.1).isNone

/-- MarkdownToProseMirrorMapper.modifyNode: shallow-merge nodeAttrs into
the resolved node's attrs (no-op when the operation carries no
nodeAttrs). -/
def modifyNode (doc : PMNode) (path : List Nat)
    (operation : MarkdownDiffOperation) : Option PMNode :=
  updateAtPath doc path fun node =>
    match operation.nodeAttrs with
    | some newAttrs => node.setAttrs (some (mergeAttrs (node.attrs.getD []) newAttrs))
    | none => node

/-- MarkdownToProseMirrorMapper.applyOperation: dispatch on the operation
type (an absent prosemirrorPath is treated as the empty path); operation
types outside the four applier cases fall through the switch unchanged.
The none result models the exception thrown on a bad path. -/
def applyOperation (doc : PMNode) (operation : MarkdownDiffOperation) : Option PMNode :=
  let path := operation.prosemirrorPath.getD []
  if operation.type = "insert_node" then insertNode doc path operation
  else if operation.type = "delete_node" then deleteNode doc path
  else if operation.type = "replace" then replaceTextContent doc path operation
  else if operation.type = "modify_node" then modifyNode doc path operation
  else some doc

/-- The comparator's inner loop: compare two equal-length paths component
by component starting from the last index and moving backward (realized
here as a front-to-back scan of the reversed paths), returning the JS
comparator value valB - valA at the first difference and 0 otherwise. -/
def compareRev : List Nat → List Nat → Int
  | x :: xs, y :: ys => if x ≠ y then (y : Int) - (x : Int) else compareRev xs ys
  | _, _ => 0

/-- The sort comparator of applyOperationsToDocument: descending path
depth first, then descending component-wise comparison from the last
index backward. -/
def opCompare (a b : MarkdownDiffOperation) : Int :=
  let pathA := a.prosemirrorPath.getD []
  let pathB := b.prosemirrorPath.getD []
  if pathA.length ≠ pathB.length then (pathB.length : Int) - (pathA.length : Int)
  else compareRev pathA.reverse pathB.reverse

/-- The sorted operation list ([...operations].sort(comparator); JS sort
is stable and the comparator is a total preorder, so it is merge sort). -/
def sortOps (operations : List MarkdownDiffOperation) : List MarkdownDiffOperation :=
  operations.mergeSort fun a b => decide (opCompare a b ≤ 0)

/-- The per-operation try/catch in applyOperationsToDocument: a thrown
(none) application leaves the document as it was. -/
def applyOperationCaught (doc : PMNode) (operation : MarkdownDiffOperation) : PMNode :=
  match applyOperation doc operation with
  | some doc' => doc'
  | none => doc

/-- JSON.parse(JSON.stringify(doc)): at the value level the deep clone is
the identity (its aliasing content is captured by the heap model below). -/
def deepClone (doc : PMNode) : PMNode := doc

/-- MarkdownToProseMirrorMapper.applyOperationsToDocument. -/
def applyOperationsToDocument (originalDoc : PMNode)
    (operations : List MarkdownDiffOperation) : PMNode :=
  (sortOps operations).foldl applyOperationCaught (deepClone originalDoc)

/-- The switch inside the reducer of calculateStatistics: the three
structural operation types increment nodesModified and structuralChanges
together, the three text operation types increment textChanges, anything
else is ignored. -/
def statisticsStep (stats : Statistics) (op : MarkdownDiffOperation) : Statistics :=
  if op.type = "insert_node" ∨ op.type = "delete_node" ∨ op.type = "modify_node" then
    { stats with nodesModified := stats.nodesModified + 1,
                 structuralChanges := stats.structuralChanges + 1 }
  else if op.type = "replace" ∨ op.type = "insert" ∨ op.type = "delete" then
    { stats with textChanges := stats.textChanges + 1 }
  else stats

/-- MarkdownToProseMirrorMapper.calculateStatistics. -/
def calculateStatistics (operations : List MarkdownDiffOperation) : Statistics :=
  operations.foldl statisticsStep
    { nodesModified := 0, textChanges := 0, structuralChanges := 0 }

/-- The body of the try block of MarkdownToProseMirrorMapper.transform,
in the exception monad: parse both sides, analyze the original tree,
diff, map, apply.  Every step is total in the typed model, but the
Except structure records where the JS code may throw. -/
def transformCore (originalMarkdown modifiedMarkdown : String)
    (originalProseMirrorDoc : PMNode) :
    Except String (List MarkdownDiffOperation × PMNode) := do
  let originalBlocks := MarkdownParser.parseToBlocks originalMarkdown
  let modifiedBlocks := MarkdownParser.parseToBlocks modifiedMarkdown
  let docAnalysis := ProseMirrorAnalyzer.analyzeDocument originalProseMirrorDoc
  let blockDiff := computeBlockDiff originalBlocks modifiedBlocks
  let mappedOperations :=
    mapDiffToProseMirror blockDiff docAnalysis originalMarkdown modifiedMarkdown
  let newDocument := applyOperationsToDocument originalProseMirrorDoc mappedOperations
  pure (mappedOperations, newDocument)

/-- The try/catch wrapper of transform: a successful core produces the
success record, a thrown error is converted into the failure record that
returns the original tree unchanged with the single error message. -/
def transformWith (core : Except String (List MarkdownDiffOperation × PMNode))
    (originalProseMirrorDoc : PMNode) : TransformResult :=
  match core with
  | .ok (operations, newDocument) =>
    { success := true, newDocument := newDocument, operations := operations,
      errors := [], statistics := calculateStatistics operations }
  | .error message =>
    { success := false, newDocument := originalProseMirrorDoc, operations := [],
      errors := [message],
      statistics := { nodesModified := 0, textChanges := 0, structuralChanges := 0 } }

/-- MarkdownToProseMirrorMapper.transform. -/
def transform (originalMarkdown modifiedMarkdown : String)
    (originalProseMirrorDoc : PMNode) : TransformResult :=
  transformWith (transformCore originalMarkdown modifiedMarkdown originalProseMirrorDoc)
    originalProseMirrorDoc

end MarkdownToProseMirrorMapper

/-! ## Transformer entry points (src/transformer.ts) -/

namespace Transformer

/-- One entry of the batchTransform argument list. -/
structure TransformRequest where
  originalMarkdown : String
  modifiedMarkdown : String
  originalProseMirrorDoc : PMNode

/-- MarkdownDiffProseMirrorTransformer.transform simply delegates to the
mapper. -/
def transform (originalMarkdown modifiedMarkdown : String)
    (originalProseMirrorDoc : PMNode) : TransformResult :=
  MarkdownToProseMirrorMapper.transform originalMarkdown modifiedMarkdown
    originalProseMirrorDoc

/-- The throw-on-failure wrapper of transformDocument, as a function of
the transform result. -/
def transformDocumentWith (result : TransformResult) : Except String PMNode :=
  if !result.success then
    .error ("Transform failed: " ++ String.intercalate ", " result.errors)
  else .ok result.newDocument

/-- MarkdownDiffProseMirrorTransformer.transformDocument. -/
def transformDocument (originalMarkdown modifiedMarkdown : String)
    (originalProseMirrorDoc : PMNode) : Except String PMNode :=
  transformDocumentWith (transform originalMarkdown modifiedMarkdown originalProseMirrorDoc)

/-- MarkdownDiffProseMirrorTransformer.validateProseMirrorDocument: the
root type is "doc" and the content field is an array. -/
def validateProseMirrorDocument (doc : PMNode) : Bool :=
  doc.type == "doc" && doc.content.isSome

/-- MarkdownDiffProseMirrorTransformer.createEmptyDocument. -/
def createEmptyDocument : PMNode :=
  PMNode.mk "doc" none (some []) none none

/-- MarkdownDiffProseMirrorTransformer.batchTransform: one transform per
request, order preserved.  transform itself never rejects (its body is
wrapped in try/catch), so the allSettled rejected branch of the source is
unreachable for well-typed requests and the batch is the element-wise
map. -/
def batchTransform (transformations : List TransformRequest) : List TransformResult :=
  transformations.map fun t =>
    transform t.originalMarkdown t.modifiedMarkdown t.originalProseMirrorDoc

end Transformer

/-! ## The applier over an explicit object heap

The value-level applier above cannot express the aliasing part of the
source: applyOperationsToDocument deep-clones the original tree
(JSON.parse(JSON.stringify(...))) and then mutates the clone in place, and
the specification promises that the caller's original tree is never
mutated.  To state that promise, this section re-runs the applier over an
explicit heap of node objects: nodes are heap cells addressed by ids,
a tree is a root id, the clone allocates fresh cells, and every mutation
is a cell write.  The mutating helpers mirror the same source functions as
their value-level counterparts. -/

namespace HeapModel

/-- A node object on the heap: the fields of a ProseMirrorNode with the
content array holding references (ids) to the child objects. -/
structure HeapCell where
  type : String
  attrs : Option Attrs
  content : Option (List Nat)
  text : Option String
  marks : Option (List Mark)

/-- The object heap: an allocation bound and the allocated cells.  Ids at
or above the bound are unallocated. -/
structure Heap where
  next : Nat
  cells : Nat → Option HeapCell

/-- Overwrite one cell in place. -/
def Heap.write (h : Heap) (id : Nat) (cell : HeapCell) : Heap :=
  ⟨h.next, fun n => if n = id then some cell else h.cells n⟩

/-- Allocate a fresh cell, returning its id. -/
def Heap.alloc (h : Heap) (cell : HeapCell) : Heap × Nat :=
  (⟨h.next + 1, fun n => if n = h.next then some cell else h.cells n⟩, h.next)

/-- No cell is allocated at or above the allocation bound. -/
def Heap.Bounded (h : Heap) : Prop :=
  ∀ id, h.next ≤ id → h.cells id = none

/-- Read the trees rooted at a list of ids back into values.  The fuel
bounds the recursion depth (the heap is not intrinsically acyclic); any
fuel at least the number of reachable nodes is enough. -/
def readTreeList : Nat → Heap → List Nat → Option (List PMNode)
  | _, _, [] => some []
  | 0, _, _ :: _ => none
  | fuel + 1, h, id :: rest =>
    match h.cells id with
    | none => none
    | some cell =>
      let node? : Option PMNode :=
        match cell.content with
        | none => some (.mk cell.type cell.attrs none cell.text cell.marks)
        | some cids =>
          (readTreeList fuel h cids).map fun cs =>
            .mk cell.type cell.attrs (some cs) cell.text cell.marks
      match node?, readTreeList fuel h rest with
      | some node, some nodes => some (node :: nodes)
      | _, _ => none

/-- Read one tree back into a value. -/
def readTree (fuel : Nat) (h : Heap) (id : Nat) : Option PMNode :=
  match readTreeList fuel h [id] with
  | some [node] => some node
  | _ => none

/-- The deep clone JSON.parse(JSON.stringify(...)) over the heap: copy
the trees rooted at the given ids into freshly allocated cells, returning
the new root ids. -/
def cloneList : Nat → Heap → List Nat → Heap × Option (List Nat)
  | _, h, [] => (h, some [])
  | 0, h, _ :: _ => (h, none)
  | fuel + 1, h, id :: rest =>
    match h.cells id with
    | none => (h, none)
    | some cell =>
      let cloned : Heap × Option Nat :=
        match cell.content with
        | none =>
          let r := h.alloc ⟨cell.type, cell.attrs, none, cell.text, cell.marks⟩
          (r.1, some r.2)
        | some cids =>
          match cloneList fuel h cids with
          | (h1, some newCids) =>
            let r := h1.alloc ⟨cell.type, cell.attrs, some newCids, cell.text, cell.marks⟩
            (r.1, some r.2)
          | (h1, none) => (h1, none)
      match cloned with
      | (h1, some newId) =>
        match cloneList fuel h1 rest with
        | (h2, some newIds) => (h2, some (newId :: newIds))
        | (h2, none) => (h2, none)
      | (h1, none) => (h1, none)

/-- getNodeAtPath over the heap: walk the path through the content
reference lists; none models the thrown exception on an invalid path. -/
def heapGetNodeAtPath (h : Heap) : Nat → List Nat → Option Nat
  | id, [] => some id
  | id, index :: rest =>
    match h.cells id with
    | some cell =>
      match cell.content with
      | some cids =>
        match cids[index]? with
        | some child => heapGetNodeAtPath h child rest
        | none => none
      | none => none
    | none => none

/-- Allocate cells for the token nodes produced by parseContentToNodes
(always leaf nodes: their content field is absent). -/
def allocTokenCells (h : Heap) : List PMNode → Heap × List Nat
  | [] => (h, [])
  | node :: rest =>
    let r := h.alloc ⟨node.type, node.attrs, none, node.text, node.marks⟩
    let rr := allocTokenCells r.1 rest
    (rr.1, r.2 :: rr.2)

/-- The new node object constructed by insertNode, allocated on the heap
together with its token children. -/
def heapBuildInsertedNode (h : Heap) (operation : MarkdownDiffOperation) : Heap × Nat :=
  let tokens :=
    match operation.content with
    | some s => if s = "" then [] else MarkdownToProseMirrorMapper.parseContentToNodes s
    | none => []
  let r := allocTokenCells h tokens
  r.1.alloc ⟨operation.nodeType.getD "paragraph", operation.nodeAttrs, some r.2, none, none⟩

/-- insertNode over the heap (same logic as the value-level insertNode;
the splice is a write to the parent cell). -/
def heapInsertNode (h : Heap) (rootId : Nat) (path : List Nat)
    (operation : MarkdownDiffOperation) : Option Heap :=
  let index := path.getLast?.getD 0
  match heapGetNodeAtPath h rootId path.dropLast with
  | none => none
  | some parentId =>
    match h.cells parentId with
    | some cell =>
      match cell.content with
      | some cids =>
        let r := heapBuildInsertedNode h operation
        some (r.1.write parentId
          { cell with content := some (cids.take index ++ [r.2] ++ cids.drop index) })
      | none => some h
    | none => some h

/-- deleteNode over the heap. -/
def heapDeleteNode (h : Heap) (rootId : Nat) (path : List Nat) : Option Heap :=
  if path.isEmpty then some h
  else
    match heapGetNodeAtPath h rootId path.dropLast with
    | none => none
    | some parentId =>
      match h.cells parentId with
      | some cell =>
        match cell.content, path.getLast? with
        | some cids, some index =>
          if index < cids.length then
            some (h.write parentId { cell with content := some (cids.eraseIdx index) })
          else some h
        | _, _ => some h
      | none => some h

/-- replaceTextContent over the heap. -/
def heapReplaceTextContent (h : Heap) (rootId : Nat) (path : List Nat)
    (operation : MarkdownDiffOperation) : Option Heap :=
  match heapGetNodeAtPath h rootId path with
  | none => none
  | some nodeId =>
    match h.cells nodeId with
    | some cell =>
      match cell.content with
      | some _ =>
        let r := allocTokenCells h
          (MarkdownToProseMirrorMapper.parseContentToNodes (operation.content.getD ""))
        some (r.1.write nodeId { cell with content := some r.2 })
      | none => some h
    | none => some h

/-- modifyNode over the heap. -/
def heapModifyNode (h : Heap) (rootId : Nat) (path : List Nat)
    (operation : MarkdownDiffOperation) : Option Heap :=
  match heapGetNodeAtPath h rootId path with
  | none => none
  | some nodeId =>
    match h.cells nodeId with
    | some cell =>
      match operation.nodeAttrs with
      | some newAttrs =>
        let merged := MarkdownToProseMirrorMapper.mergeAttrs (cell.attrs.getD []) newAttrs
        some (h.write nodeId { cell with attrs := some merged })
      | none => some h
    | none => some h

/-- applyOperation over the heap. -/
def heapApplyOperation (h : Heap) (rootId : Nat)
    (operation : MarkdownDiffOperation) : Option Heap :=
  let path := operation.prosemirrorPath.getD []
  if operation.type = "insert_node" then heapInsertNode h rootId path operation
  else if operation.type = "delete_node" then heapDeleteNode h rootId path
  else if operation.type = "replace" then heapReplaceTextContent h rootId path operation
  else if operation.type = "modify_node" then heapModifyNode h rootId path operation
  else some h

/-- The per-operation try/catch over the heap. -/
def heapApplyOperationCaught (h : Heap) (rootId : Nat)
    (operation : MarkdownDiffOperation) : Heap :=
  match heapApplyOperation h rootId operation with
  | some h' => h'
  | none => h

/-- applyOperationsToDocument over the heap: deep-clone the original tree,
then apply the sorted operations to the clone.  Returns the final heap and
the id of the new document (none when the clone itself fails, e.g. out of
fuel). -/
def heapApplyOperationsToDocument (fuel : Nat) (h : Heap) (originalId : Nat)
    (operations : List MarkdownDiffOperation) : Heap × Option Nat :=
  let r := cloneList fuel h [originalId]
  match r.2 with
  | some [cloneId] =>
    ((MarkdownToProseMirrorMapper.sortOps operations).foldl
        (fun hh op => heapApplyOperationCaught hh cloneId op) r.1,
      some cloneId)
  | _ => (r.1, none)

end HeapModel

/-! ## Specification predicates

Definitions used only to state the verified properties; they are written
from the specification's wording, not from the source. -/

/-- The blocks, in order, exactly tile the line range from k to n - 1:
each block starts where the previous one stopped (no gap, no overlap),
covers at least its own start line, and the last block stops at n - 1. -/
def tilesFrom : Nat → Nat → List MarkdownBlock → Prop
  | k, n, [] => k = n
  | k, n, b :: bs => b.startLine = k ∧ b.startLine ≤ b.endLine ∧ tilesFrom (b.endLine + 1) n bs

/-- Descending component-wise comparison of two equal-length index
sequences: the sequence whose first differing component is larger comes
first (ties recurse; equal sequences are related both ways). -/
def descLe : List Nat → List Nat → Prop
  | x :: xs, y :: ys => x > y ∨ (x = y ∧ descLe xs ys)
  | _, _ => True

/-- The application order promised for the applier's sort: deeper paths
first; for equal depth, paths compared component-wise starting from the
last index and moving backward (that is, front-to-back on the reversed
paths), descending. -/
def operationOrder (a b : MarkdownDiffOperation) : Prop :=
  let pathA := a.prosemirrorPath.getD []
  let pathB := b.prosemirrorPath.getD []
  pathB.length < pathA.length ∨
    (pathA.length = pathB.length ∧ descLe pathA.reverse pathB.reverse)

/-- Mark sets identical in the sense of the specification: same length
and element-wise equal type and attrs, with an absent mark list read as
the empty one. -/
def marksIdentical (a b : Option (List Mark)) : Bool :=
  MarkdownParser.marksListEqual (a.getD []) (b.getD [])

/-! ### Heap invariants used to state the no-mutation property -/

namespace HeapModel

/-- All heap cells strictly below the mark agree between two heaps: the
part of the object graph allocated before the mark is untouched. -/
def PreservesBelow (mark : Nat) (h0 h1 : Heap) : Prop :=
  ∀ id, id < mark → h1.cells id = h0.cells id

/-- Every cell at or above the mark references only children at or above
the mark: the cloned region never points back into the original trees. -/
def ClosedAbove (mark : Nat) (h : Heap) : Prop :=
  ∀ id cell, mark ≤ id → h.cells id = some cell →
    ∀ cids, cell.content = some cids → ∀ c ∈ cids, mark ≤ c

/-- The applier's running invariant relative to the heap h0 it started
from: the allocation bound stays above the mark, the cells below the mark
are those of h0, and the region above the mark is closed. -/
def Inv (mark : Nat) (h0 h : Heap) : Prop :=
  mark ≤ h.next ∧ PreservesBelow mark h0 h ∧ ClosedAbove mark h

end HeapModel

/-! ## Concrete example values used by the verification -/

/-- The ProseMirror tree of the Markdown "# Hello\n\nWorld": a level-1
heading and a paragraph under the doc root. -/
def docHelloWorld : PMNode :=
  PMNode.mk "doc" none (some
    [ PMNode.mk "heading" (some [("level", AttrVal.num 1)])
        (some [PMNode.mk "text" none none (some "Hello") none]) none none,
      PMNode.mk "paragraph" none
        (some [PMNode.mk "text" none none (some "World") none]) none none ]) none none

/-! ## Theorems -/

open MarkdownParser MarkdownToProseMirrorMapper ProseMirrorAnalyzer Transformer HeapModel

theorem statisticsStep_foldl_agree (operations : List MarkdownDiffOperation) :
    ∀ s : Statistics, s.nodesModified = s.structuralChanges →
      (operations.foldl statisticsStep s).nodesModified =
        (operations.foldl statisticsStep s).structuralChanges := by
  induction operations with
  | nil => intro s h; simpa using h
  | cons op rest ih =>
    intro s h
    rw [List.foldl_cons]
    apply ih
    unfold statisticsStep
    split
    · simpa using h
    · split
      · simpa using h
      · simpa using h

/-- C9: the statistics attached to any transform result (and the result
of calculateStatistics on any operation list) satisfy
nodesModified = structuralChanges: insert_node, delete_node and
modify_node increment both counters together, while replace / insert /
delete increment only textChanges, so the two structural counters never
differ. -/
theorem statistics_structural_counters_agree :
    (∀ operations : List MarkdownDiffOperation,
        (calculateStatistics operations).nodesModified =
          (calculateStatistics operations).structuralChanges)
  ∧ ∀ (originalMarkdown modifiedMarkdown : String) (doc : PMNode),
      (MarkdownToProseMirrorMapper.transform originalMarkdown modifiedMarkdown
          doc).statistics.nodesModified =
        (MarkdownToProseMirrorMapper.transform originalMarkdown modifiedMarkdown
          doc).statistics.structuralChanges := by
  have key : ∀ operations : List MarkdownDiffOperation,
      (calculateStatistics operations).nodesModified =
        (calculateStatistics operations).structuralChanges := by
    intro ops
    exact statisticsStep_foldl_agree ops { nodesModified := 0, textChanges := 0, structuralChanges := 0 } rfl
  exact ⟨key, fun o m doc => key _⟩

/-- C3: exceptions thrown by any internal step of transform are converted
into the failure record carrying the original tree unchanged, no
operations and the exception message (first conjunct; the steps
themselves are total functions in this embedding, so transform cannot
throw by construction); transformDocument re-raises exactly when the
underlying transform reports failure, with the joined error messages, and
returns only the new tree on success (remaining conjuncts). -/
theorem transform_error_contract :
    (∀ (message : String) (doc : PMNode),
        transformWith (.error message) doc =
          { success := false, newDocument := doc, operations := [], errors := [message],
            statistics := { nodesModified := 0, textChanges := 0, structuralChanges := 0 } })
  ∧ (∀ result : TransformResult, result.success = false →
        transformDocumentWith result =
          .error ("Transform failed: " ++ String.intercalate ", " result.errors))
  ∧ (∀ result : TransformResult, result.success = true →
        transformDocumentWith result = .ok result.newDocument)
  ∧ ∀ (originalMarkdown modifiedMarkdown : String) (doc : PMNode),
      transformDocument originalMarkdown modifiedMarkdown doc =
        transformDocumentWith
          (MarkdownToProseMirrorMapper.transform originalMarkdown modifiedMarkdown doc) := by
  refine ⟨fun message doc => rfl, ?_, ?_, fun o m doc => rfl⟩
  · intro result h
    simp [transformDocumentWith, h]
  · intro result h
    simp [transformDocumentWith, h]

/-- Witness for transform_error_contract: a thrown message produces the
failure record, and transformDocument's wrapper raises on a failed result
and returns the tree on a successful one. -/
theorem transform_error_contract_witness :
    (transformWith (.error "boom") (PMNode.mk "doc" none (some []) none none) =
      { success := false, newDocument := PMNode.mk "doc" none (some []) none none,
        operations := [], errors := ["boom"],
        statistics := { nodesModified := 0, textChanges := 0, structuralChanges := 0 } })
  ∧ (transformDocumentWith
        { success := false, newDocument := PMNode.mk "doc" none (some []) none none,
          operations := [], errors := ["parse failed", "bad tree"],
          statistics := { nodesModified := 0, textChanges := 0, structuralChanges := 0 } } =
      .error ("Transform failed: " ++ String.intercalate ", " ["parse failed", "bad tree"]))
  ∧ (transformDocumentWith
        { success := true, newDocument := PMNode.mk "doc" none (some []) none none,
          operations := [], errors := [],
          statistics := { nodesModified := 0, textChanges := 0, structuralChanges := 0 } } =
      .ok (PMNode.mk "doc" none (some []) none none)) :=
  ⟨transform_error_contract.1 "boom" _,
   transform_error_contract.2.1 _ rfl,
   transform_error_contract.2.2.1 _ rfl⟩

theorem blocksEqual_self (b : MarkdownBlock) : blocksEqual b b = true := by
  simp [blocksEqual]

theorem computeBlockDiffGo_self (bs : List MarkdownBlock) :
    ∀ i, computeBlockDiffGo bs bs i = [] := by
  induction bs with
  | nil => intro i; rfl
  | cons b rest ih =>
    intro i
    simp [computeBlockDiffGo, blocksEqual_self, ih]

/-- C2: transforming identical original and modified Markdown against any
original tree yields an empty operation list and a new document equal to
the original tree (the value-level tree equality of this embedding is
exactly deep equality of the JS objects). -/
theorem transform_idempotent :
    ∀ (markdown : String) (originalTree : PMNode),
      (MarkdownToProseMirrorMapper.transform markdown markdown originalTree).operations = []
    ∧ (MarkdownToProseMirrorMapper.transform markdown markdown originalTree).newDocument =
        originalTree := by
  intro markdown originalTree
  have hdiff : computeBlockDiff (parseToBlocks markdown) (parseToBlocks markdown) = [] :=
    computeBlockDiffGo_self _ 0
  have hops : (MarkdownToProseMirrorMapper.transform markdown markdown originalTree).operations =
      mapDiffToProseMirror
        (computeBlockDiff (parseToBlocks markdown) (parseToBlocks markdown))
        (analyzeDocument originalTree) markdown markdown := rfl
  have hdoc : (MarkdownToProseMirrorMapper.transform markdown markdown originalTree).newDocument =
      applyOperationsToDocument originalTree
        (mapDiffToProseMirror
          (computeBlockDiff (parseToBlocks markdown) (parseToBlocks markdown))
          (analyzeDocument originalTree) markdown markdown) := rfl
  rw [hdiff] at hops hdoc
  refine ⟨hops, ?_⟩
  rw [hdoc]
  simp [applyOperationsToDocument, sortOps, deepClone, mapDiffToProseMirror]

theorem list_set_getElem_self {α : Type _} (cs : List α) (i : Nat) (hi : i < cs.length) :
    cs.set i cs[i] = cs := by
  apply List.ext_getElem
  · simp
  · intro n h1 h2
    rw [List.getElem_set]
    split <;> simp_all

theorem updateAtPath_eq_of_fixed :
    ∀ (path : List Nat) (doc n : PMNode) (f : PMNode → PMNode),
      getNodeAtPath doc path = some n → f n = n →
      updateAtPath doc path f = some doc := by
  intro path
  induction path with
  | nil =>
    intro doc n f hres hf
    have hdoc : doc = n := by simpa [getNodeAtPath] using hres
    subst hdoc
    simpa [updateAtPath] using congrArg some hf
  | cons i rest ih =>
    intro doc n f hres hf
    cases doc with
    | mk t a c x m =>
      cases c with
      | none => simp [getNodeAtPath, PMNode.content] at hres
      | some cs =>
        cases hcs : cs[i]? with
        | none => simp [getNodeAtPath, PMNode.content, hcs] at hres
        | some child =>
          have h1 : getNodeAtPath child rest = some n := by
            simpa [getNodeAtPath, PMNode.content, hcs] using hres
          have h2 := ih child n f h1 hf
          have hi : i < cs.length := by
            by_contra hn
            simp [List.getElem?_eq_none (Nat.le_of_not_lt hn)] at hcs
          have hchild : cs[i] = child := by
            rw [List.getElem?_eq_getElem hi] at hcs
            exact Option.some.inj hcs
          have hset : cs.set i child = cs := by
            rw [← hchild]
            exact list_set_getElem_self cs i hi
          simp [updateAtPath, PMNode.content, hcs, h2, PMNode.setContent, hset]

/-- C10: a delete_node operation whose path is absent or empty is a no-op
(the root can never be deleted), and a delete_node whose last path
component is out of range of the resolved parent's children leaves the
tree unchanged. -/
theorem delete_node_safety :
    (∀ (doc : PMNode) (operation : MarkdownDiffOperation),
        operation.type = "delete_node" →
        operation.prosemirrorPath.getD [] = [] →
        applyOperation doc operation = some doc)
  ∧ ∀ (doc : PMNode) (operation : MarkdownDiffOperation) (p : List Nat) (i : Nat)
      (parent : PMNode) (cs : List PMNode),
      operation.type = "delete_node" →
      operation.prosemirrorPath = some (p ++ [i]) →
      getNodeAtPath doc p = some parent →
      parent.content = some cs →
      cs.length ≤ i →
      applyOperation doc operation = some doc := by
  constructor
  · intro doc operation hty hpath
    unfold applyOperation
    rw [hty, hpath]
    simp [deleteNode]
  · intro doc operation p i parent cs hty hpath hget hcontent hlen
    have hstep : applyOperation doc operation = deleteNode doc (p ++ [i]) := by
      unfold applyOperation
      rw [hty, hpath]
      rw [if_neg (by decide : ¬ ("delete_node" = "insert_node"))]
      rw [if_pos (rfl : "delete_node" = "delete_node")]
      simp only [Option.getD_some]
    rw [hstep]
    have hempty : (p ++ [i]).isEmpty = false := by simp
    unfold deleteNode
    rw [hempty]
    simp only [Bool.false_eq_true, if_false]
    rw [List.dropLast_concat]
    refine updateAtPath_eq_of_fixed p doc parent _ hget ?_
    beta_reduce
    rw [List.getLast?_concat, hcontent]
    simp [Nat.not_lt.mpr hlen]

/-- Witness for delete_node_safety: an absent-path delete and an
out-of-range delete each leave a concrete document unchanged. -/
theorem delete_node_safety_witness :
    (applyOperation (PMNode.mk "doc" none (some []) none none)
        { type := "delete_node", markdownPosition := 0 } =
      some (PMNode.mk "doc" none (some []) none none))
  ∧ applyOperation (PMNode.mk "doc" none (some []) none none)
        { type := "delete_node", markdownPosition := 0, prosemirrorPath := some [5] } =
      some (PMNode.mk "doc" none (some []) none none) :=
  ⟨delete_node_safety.1 _ _ rfl rfl,
   delete_node_safety.2 _ _ [] 5 (PMNode.mk "doc" none (some []) none none) [] rfl rfl rfl rfl
     (Nat.zero_le 5)⟩

theorem parseToBlocksGo_spec :
    ∀ (lines : List String) (idx : Nat) (cur : Option MarkdownBlock),
      (∀ c, cur = some c →
          c.endLine + 1 = idx ∧ c.startLine ≤ c.endLine ∧
          c.content.length = c.endLine - c.startLine + 1) →
      tilesFrom (match cur with | some c => c.startLine | none => idx)
          (idx + lines.length) (parseToBlocksGo lines idx cur)
    ∧ ∀ b ∈ parseToBlocksGo lines idx cur,
        b.startLine ≤ b.endLine ∧ b.content.length = b.endLine - b.startLine + 1 := by
  intro lines
  induction lines with
  | nil =>
    intro idx cur hcur
    cases cur with
    | none =>
      constructor
      · simp [parseToBlocksGo, tilesFrom]
      · simp [parseToBlocksGo]
    | some c =>
      obtain ⟨h1, h2, h3⟩ := hcur c rfl
      constructor
      · refine ⟨rfl, h2, ?_⟩
        show c.endLine + 1 = idx + 0
        omega
      · intro b hb
        have hb' : b = c := by simpa [parseToBlocksGo] using hb
        subst hb'
        exact ⟨h2, h3⟩
  | cons line rest ih =>
    intro idx cur hcur
    cases cur with
    | none =>
      have hnew : ∀ c, some (newBlockFor line idx (identifyBlock line)) = some c →
          c.endLine + 1 = idx + 1 ∧ c.startLine ≤ c.endLine ∧
          c.content.length = c.endLine - c.startLine + 1 := by
        intro c hc
        cases hc
        simp [newBlockFor]
      have hrec := ih (idx + 1) (some (newBlockFor line idx (identifyBlock line))) hnew
      constructor
      · have harith : idx + (line :: rest).length = (idx + 1) + rest.length := by
          simp
          omega
        rw [harith]
        simpa [parseToBlocksGo, newBlockFor] using hrec.1
      · intro b hb
        apply hrec.2
        simpa [parseToBlocksGo] using hb
    | some c =>
      obtain ⟨h1, h2, h3⟩ := hcur c rfl
      by_cases hcond : (identifyBlock line).type ≠ c.type ∨ (identifyBlock line).startNew
      · have hgo : parseToBlocksGo (line :: rest) idx (some c) =
            c :: parseToBlocksGo rest (idx + 1)
              (some (newBlockFor line idx (identifyBlock line))) := by
          simp [parseToBlocksGo, hcond]
        have hnew : ∀ c', some (newBlockFor line idx (identifyBlock line)) = some c' →
            c'.endLine + 1 = idx + 1 ∧ c'.startLine ≤ c'.endLine ∧
            c'.content.length = c'.endLine - c'.startLine + 1 := by
          intro c' hc'
          cases hc'
          simp [newBlockFor]
        have hrec := ih (idx + 1) (some (newBlockFor line idx (identifyBlock line))) hnew
        constructor
        · rw [hgo]
          refine ⟨rfl, h2, ?_⟩
          have harith : idx + (line :: rest).length = (idx + 1) + rest.length := by
            simp
            omega
          rw [h1, harith]
          simpa [newBlockFor] using hrec.1
        · intro b hb
          rw [hgo] at hb
          rcases List.mem_cons.mp hb with hb | hb
          · subst hb
            exact ⟨h2, h3⟩
          · exact hrec.2 b hb
      · have hgo : parseToBlocksGo (line :: rest) idx (some c) =
            parseToBlocksGo rest (idx + 1)
              (some { c with content := c.content ++ [line], endLine := idx }) := by
          simp [parseToBlocksGo, hcond]
        have hinv : ∀ c', some { c with content := c.content ++ [line], endLine := idx } = some c' →
            c'.endLine + 1 = idx + 1 ∧ c'.startLine ≤ c'.endLine ∧
            c'.content.length = c'.endLine - c'.startLine + 1 := by
          intro c' hc'
          cases hc'
          refine ⟨rfl, ?_, ?_⟩
          · simp
            omega
          · simp
            omega
        have hrec := ih (idx + 1) (some { c with content := c.content ++ [line], endLine := idx }) hinv
        constructor
        · rw [hgo]
          have harith : idx + (line :: rest).length = (idx + 1) + rest.length := by
            simp
            omega
          rw [harith]
          exact hrec.1
        · intro b hb
          rw [hgo] at hb
          exact hrec.2 b hb

/-- C5: for every input string, parseToBlocks returns blocks whose
startLine / endLine ranges exactly tile the line range of the input with
no gaps or overlaps, and every block's content list has length
endLine - startLine + 1. -/
theorem parseToBlocks_partition :
    ∀ markdown : String,
      tilesFrom 0 (jsSplitNewlines markdown).length (parseToBlocks markdown)
    ∧ ∀ b ∈ parseToBlocks markdown,
        b.startLine ≤ b.endLine ∧ b.content.length = b.endLine - b.startLine + 1 := by
  intro markdown
  have h := parseToBlocksGo_spec (jsSplitNewlines markdown) 0 none (by intro c hc; cases hc)
  simpa [parseToBlocks] using h

/-- Witness for parseToBlocks_partition: the three blocks of a concrete
input tile its three lines, and the content-length invariant holds at the
concrete heading block. -/
theorem parseToBlocks_partition_witness :
    tilesFrom 0 (jsSplitNewlines "# Hello\n\nWorld").length (parseToBlocks "# Hello\n\nWorld")
  ∧ ({ type := "heading", content := ["# Hello"], startLine := 0, endLine := 0,
       level := some 1, attrs := some [("level", AttrVal.num 1)] } : MarkdownBlock).content.length =
      ({ type := "heading", content := ["# Hello"], startLine := 0, endLine := 0,
         level := some 1, attrs := some [("level", AttrVal.num 1)] } : MarkdownBlock).endLine -
        ({ type := "heading", content := ["# Hello"], startLine := 0, endLine := 0,
           level := some 1, attrs := some [("level", AttrVal.num 1)] } : MarkdownBlock).startLine + 1 :=
  ⟨(parseToBlocks_partition "# Hello\n\nWorld").1,
   ((parseToBlocks_partition "# Hello\n\nWorld").2 _ (by decide)).2⟩

theorem parseInlineGo_tokens :
    ∀ (fuel : Nat) (cs : List Char) (t : InlineToken),
      t ∈ parseInlineGo fuel cs → t.type = "text" ∧ t.marks ≠ some [] := by
  intro fuel
  induction fuel with
  | zero =>
    intro cs t h
    simp [parseInlineGo] at h
  | succ n ih =>
    intro cs t h
    cases cs with
    | nil => simp [parseInlineGo] at h
    | cons c rest =>
      simp only [parseInlineGo] at h
      split at h
      · rcases List.mem_cons.mp h with h | h
        · subst h
          constructor <;> simp
        · exact ih _ t h
      · split at h
        · rcases List.mem_cons.mp h with h | h
          · subst h
            constructor <;> simp
          · exact ih _ t h
        · split at h
          · rcases List.mem_cons.mp h with h | h
            · subst h
              constructor <;> simp
            · exact ih _ t h
          · split at h
            · rcases List.mem_cons.mp h with h | h
              · subst h
                constructor <;> simp
              · exact ih _ t h
            · rcases List.mem_cons.mp h with h | h
              · subst h
                constructor <;> simp
              · exact ih _ t h

theorem mergeTokensGo_head :
    ∀ (rest : List InlineToken) (last : InlineToken),
      ∃ hd tl, mergeTokensGo last rest = hd :: tl ∧ hd.type = last.type ∧
        hd.marks = last.marks := by
  intro rest
  induction rest with
  | nil => intro last; exact ⟨last, [], rfl, rfl, rfl⟩
  | cons tok rest ih =>
    intro last
    by_cases hcond :
        (last.type == "text" && tok.type == "text" && marksEqual last.marks tok.marks) = true
    · simp only [mergeTokensGo]
      rw [if_pos hcond]
      obtain ⟨hd, tl, heq, hty, hmk⟩ := ih { last with text := last.text ++ tok.text }
      exact ⟨hd, tl, heq, hty, hmk⟩
    · simp only [mergeTokensGo]
      rw [if_neg hcond]
      exact ⟨last, _, rfl, rfl, rfl⟩

theorem marksIdentical_false_of_marksEqual_false (a b : Option (List Mark))
    (ha : a ≠ some []) (hb : b ≠ some []) (h : marksEqual a b = false) :
    marksIdentical a b = false := by
  cases a with
  | none =>
    cases b with
    | none => simp [marksEqual] at h
    | some m2 =>
      cases m2 with
      | nil => exact absurd rfl hb
      | cons x xs => simp [marksIdentical, marksListEqual]
  | some m1 =>
    cases b with
    | none =>
      cases m1 with
      | nil => exact absurd rfl ha
      | cons x xs => simp [marksIdentical, marksListEqual]
    | some m2 => simpa [marksIdentical, marksEqual] using h

theorem mergeTokensGo_chain :
    ∀ (rest : List InlineToken) (last : InlineToken),
      last.type = "text" → last.marks ≠ some [] →
      (∀ t ∈ rest, t.type = "text" ∧ t.marks ≠ some []) →
      List.Chain' (fun a b => marksIdentical a.marks b.marks = false)
        (mergeTokensGo last rest) := by
  intro rest
  induction rest with
  | nil =>
    intro last _ _ _
    simp [mergeTokensGo]
  | cons tok rest ih =>
    intro last hty hmk hall
    have htok := hall tok (by simp)
    have hrest : ∀ t ∈ rest, t.type = "text" ∧ t.marks ≠ some [] := fun t ht =>
      hall t (by simp [ht])
    by_cases hcond :
        (last.type == "text" && tok.type == "text" && marksEqual last.marks tok.marks) = true
    · simp only [mergeTokensGo]
      rw [if_pos hcond]
      exact ih { last with text := last.text ++ tok.text } (by simpa using hty)
        (by simpa using hmk) hrest
    · simp only [mergeTokensGo]
      rw [if_neg hcond]
      obtain ⟨hd, tl, heq, hhty, hhmk⟩ := mergeTokensGo_head rest tok
      rw [heq, List.chain'_cons]
      constructor
      · rw [hhmk]
        have hme : marksEqual last.marks tok.marks = false := by
          simp [hty, htok.1] at hcond
          simpa using hcond
        exact marksIdentical_false_of_marksEqual_false _ _ hmk htok.2 hme
      · rw [← heq]
        exact ih tok htok.1 htok.2 hrest

/-- C8: parseInlineMarkdown never returns two adjacent tokens with
identical mark sets, where two mark lists are identical when they have
the same length and element-wise equal type and attrs (so link marks are
distinguished by href, and an absent mark list is read as empty). -/
theorem parseInlineMarkdown_no_adjacent_identical_marks :
    ∀ text : String,
      List.Chain' (fun a b => marksIdentical a.marks b.marks = false)
        (parseInlineMarkdown text) := by
  intro text
  unfold parseInlineMarkdown mergeConsecutiveTextTokens
  split
  · exact List.chain'_nil
  · rename_i t rest heq
    have hall : ∀ tok ∈ parseInlineGo text.length text.data,
        tok.type = "text" ∧ tok.marks ≠ some [] := fun tok h =>
      parseInlineGo_tokens _ _ tok h
    rw [heq] at hall
    exact mergeTokensGo_chain rest t (hall t (by simp)).1 (hall t (by simp)).2
      (fun tok ht => hall tok (by simp [ht]))

theorem compareRev_le_iff :
    ∀ xs ys : List Nat, xs.length = ys.length →
      (compareRev xs ys ≤ 0 ↔ descLe xs ys) := by
  intro xs
  induction xs with
  | nil =>
    intro ys h
    cases ys with
    | nil => simp [compareRev, descLe]
    | cons y ys => simp at h
  | cons x xs ih =>
    intro ys h
    cases ys with
    | nil => simp at h
    | cons y ys =>
      simp only [compareRev, descLe]
      by_cases hxy : x = y
      · subst hxy
        rw [if_neg (by simp)]
        rw [ih ys (by simpa using h)]
        constructor
        · intro hd
          exact Or.inr ⟨rfl, hd⟩
        · rintro (hlt | ⟨_, hd⟩)
          · omega
          · exact hd
      · rw [if_pos hxy]
        constructor
        · intro hle
          left
          omega
        · rintro (hlt | ⟨heq, _⟩)
          · omega
          · exact absurd heq hxy

theorem descLe_total : ∀ xs ys : List Nat, xs.length = ys.length →
    descLe xs ys ∨ descLe ys xs := by
  intro xs
  induction xs with
  | nil =>
    intro ys _
    left
    cases ys <;> trivial
  | cons x xs ih =>
    intro ys h
    cases ys with
    | nil => left; trivial
    | cons y ys =>
      rcases Nat.lt_trichotomy x y with hlt | heq | hgt
      · right
        simp only [descLe]
        left
        omega
      · subst heq
        rcases ih ys (by simpa using h) with hd | hd
        · left
          simp only [descLe]
          exact Or.inr ⟨by trivial, hd⟩
        · right
          simp only [descLe]
          exact Or.inr ⟨by trivial, hd⟩
      · left
        simp only [descLe]
        left
        omega

theorem descLe_trans : ∀ xs ys zs : List Nat, xs.length = ys.length → ys.length = zs.length →
    descLe xs ys → descLe ys zs → descLe xs zs := by
  intro xs
  induction xs with
  | nil =>
    intro ys zs _ _ _ _
    cases zs <;> trivial
  | cons x xs ih =>
    intro ys zs h1 h2 hab hbc
    cases ys with
    | nil => simp at h1
    | cons y ys =>
      cases zs with
      | nil => simp at h2
      | cons z zs =>
        simp only [descLe] at hab hbc ⊢
        rcases hab with hab | ⟨hab, hab'⟩
        · rcases hbc with hbc | ⟨hbc, hbc'⟩
          · left; omega
          · left; omega
        · rcases hbc with hbc | ⟨hbc, hbc'⟩
          · left; omega
          · right
            exact ⟨by omega, ih ys zs (by simpa using h1) (by simpa using h2) hab' hbc'⟩

theorem opCompare_le_iff (a b : MarkdownDiffOperation) :
    opCompare a b ≤ 0 ↔ operationOrder a b := by
  simp only [opCompare, operationOrder]
  by_cases hlen :
      (a.prosemirrorPath.getD []).length = (b.prosemirrorPath.getD []).length
  · rw [if_neg (by omega)]
    rw [compareRev_le_iff _ _ (by simp [hlen])]
    constructor
    · intro hd
      exact Or.inr ⟨hlen, hd⟩
    · rintro (hlt | ⟨_, hd⟩)
      · omega
      · exact hd
  · rw [if_pos hlen]
    constructor
    · intro hle
      left
      omega
    · rintro (hlt | ⟨heq, _⟩)
      · omega
      · exact absurd heq hlen

theorem operationOrder_trans : ∀ a b c : MarkdownDiffOperation,
    operationOrder a b → operationOrder b c → operationOrder a c := by
  intro a b c hab hbc
  simp only [operationOrder] at hab hbc ⊢
  rcases hab with hab | ⟨hlen1, hd1⟩
  · rcases hbc with hbc | ⟨hlen2, hd2⟩
    · left; omega
    · left; omega
  · rcases hbc with hbc | ⟨hlen2, hd2⟩
    · left; omega
    · right
      exact ⟨by omega, descLe_trans _ _ _ (by simp [hlen1]) (by simp [hlen2]) hd1 hd2⟩

theorem operationOrder_total : ∀ a b : MarkdownDiffOperation,
    operationOrder a b ∨ operationOrder b a := by
  intro a b
  by_cases hlen :
      (a.prosemirrorPath.getD []).length = (b.prosemirrorPath.getD []).length
  · rcases descLe_total (a.prosemirrorPath.getD []).reverse
        (b.prosemirrorPath.getD []).reverse (by simp [hlen]) with hd | hd
    · left
      exact Or.inr ⟨hlen, hd⟩
    · right
      exact Or.inr ⟨hlen.symm, hd⟩
  · rcases Nat.lt_or_ge (a.prosemirrorPath.getD []).length
        (b.prosemirrorPath.getD []).length with hlt | hge
    · right
      left
      exact hlt
    · left
      left
      omega

/-- C7: the applier sorts the operation list by descending path depth
and, for equal depth, by descending component-wise path comparison from
the last index backward (operationOrder); the sorted list is a
permutation of the input, it is sorted for that order, and the
operations are folded over the document in exactly that order. -/
theorem applier_sort_order :
    ∀ (operations : List MarkdownDiffOperation) (doc : PMNode),
      (sortOps operations).Perm operations
    ∧ List.Sorted operationOrder (sortOps operations)
    ∧ applyOperationsToDocument doc operations =
        (sortOps operations).foldl applyOperationCaught (deepClone doc) := by
  intro operations doc
  refine ⟨List.mergeSort_perm operations _, ?_, rfl⟩
  have htrans : ∀ x y z : MarkdownDiffOperation,
      (fun a b => decide (opCompare a b ≤ 0)) x y = true →
      (fun a b => decide (opCompare a b ≤ 0)) y z = true →
      (fun a b => decide (opCompare a b ≤ 0)) x z = true := by
    intro x y z h1 h2
    simp only [decide_eq_true_eq] at h1 h2 ⊢
    exact (opCompare_le_iff x z).mpr
      (operationOrder_trans x y z ((opCompare_le_iff x y).mp h1)
        ((opCompare_le_iff y z).mp h2))
  have htotal : ∀ x y : MarkdownDiffOperation,
      ((fun a b => decide (opCompare a b ≤ 0)) x y ||
        (fun a b => decide (opCompare a b ≤ 0)) y x) = true := by
    intro x y
    rcases operationOrder_total x y with h | h
    · simp [(opCompare_le_iff x y).mpr h]
    · simp [(opCompare_le_iff y x).mpr h]
  have hs := List.sorted_mergeSort htrans htotal operations
  exact List.Pairwise.imp
    (fun h => (opCompare_le_iff _ _).mp (by simpa using h)) hs

/-- C1 counterexample: at the concrete valid tree of the original
Markdown, the operations list of
transform "# Hello\n\nWorld" "# Hello\n\nWorld\n\n## New" contains two
insert_node operations, not exactly one, and the heading insert_node
carries prosemirrorPath [3], not [2] (the parser also emits blocks for
the blank separator lines, so the original parses into three blocks and
the heading is appended at index 3). -/
theorem example_insertion_counterexample :
    Transformer.validateProseMirrorDocument docHelloWorld = true
  ∧ ((MarkdownToProseMirrorMapper.transform "# Hello\n\nWorld" "# Hello\n\nWorld\n\n## New"
        docHelloWorld).operations.countP fun op => op.type == "insert_node") = 2
  ∧ ((MarkdownToProseMirrorMapper.transform "# Hello\n\nWorld" "# Hello\n\nWorld\n\n## New"
        docHelloWorld).operations.filter fun op =>
          op.type == "insert_node" && op.nodeType == some "heading").map
      (fun op => op.prosemirrorPath) = [some [3]] :=
  ⟨rfl, rfl, rfl⟩

/-- C1 (amended): for the original "# Hello\n\nWorld" and modified
"# Hello\n\nWorld\n\n## New", transform with any valid original tree
returns success = true and an operations list of exactly two insert_node
operations, both with prosemirrorPath [3]: an empty paragraph for the
blank separator line, then one whose nodeType is "heading" and whose
content is "## New" (containing "New"). -/
theorem example_insertion_amended :
    ∀ originalTree : PMNode,
      Transformer.validateProseMirrorDocument originalTree = true →
      (MarkdownToProseMirrorMapper.transform "# Hello\n\nWorld" "# Hello\n\nWorld\n\n## New"
          originalTree).success = true
    ∧ (MarkdownToProseMirrorMapper.transform "# Hello\n\nWorld" "# Hello\n\nWorld\n\n## New"
          originalTree).operations =
        [ { type := "insert_node", markdownPosition := 15, prosemirrorPath := some [3],
            nodeType := some "paragraph", content := some "" },
          { type := "insert_node", markdownPosition := 15, prosemirrorPath := some [3],
            nodeType := some "heading", content := some "## New",
            nodeAttrs := some [("level", AttrVal.num 2)] } ] := by
  intro originalTree _
  exact ⟨rfl, rfl⟩

/-- Witness for example_insertion_amended at the concrete valid tree. -/
theorem example_insertion_amended_witness :
    (MarkdownToProseMirrorMapper.transform "# Hello\n\nWorld" "# Hello\n\nWorld\n\n## New"
        docHelloWorld).success = true
  ∧ (MarkdownToProseMirrorMapper.transform "# Hello\n\nWorld" "# Hello\n\nWorld\n\n## New"
        docHelloWorld).operations =
      [ { type := "insert_node", markdownPosition := 15, prosemirrorPath := some [3],
          nodeType := some "paragraph", content := some "" },
        { type := "insert_node", markdownPosition := 15, prosemirrorPath := some [3],
          nodeType := some "heading", content := some "## New",
          nodeAttrs := some [("level", AttrVal.num 2)] } ] :=
  example_insertion_amended docHelloWorld rfl

/-- C4 counterexample: in a 3-request batch whose second request carries
an invalid tree (non-"doc" root, missing content array, as
validateProseMirrorDocument confirms), batchTransform still reports
success = true for all three results: transform performs no tree
validation, so the invalid tree does not make its request fail. -/
theorem batch_isolation_counterexample :
    Transformer.validateProseMirrorDocument (PMNode.mk "paragraph" none none none none) = false
  ∧ (Transformer.batchTransform
      [ ⟨"A", "A", PMNode.mk "doc" none (some []) none none⟩,
        ⟨"A", "A", PMNode.mk "paragraph" none none none none⟩,
        ⟨"A", "A", PMNode.mk "doc" none (some []) none none⟩ ]).map (fun r => r.success) =
      [true, true, true] :=
  ⟨rfl, rfl⟩

/-- C4 (amended): batchTransform always returns exactly one result per
request in the same order (the i-th result is the transform of the i-th
request), and a failure in one request cannot affect another since the
batch is an element-wise map; but an invalid tree does not cause a
failure: transform performs no tree validation, so in the 3-request
scenario with an invalid tree in request #2 all three results report
success = true. -/
theorem batch_transform_amended :
    (∀ requests : List Transformer.TransformRequest,
        (Transformer.batchTransform requests).length = requests.length
      ∧ ∀ i : Nat,
          (Transformer.batchTransform requests)[i]? =
            (requests[i]?).map fun t =>
              Transformer.transform t.originalMarkdown t.modifiedMarkdown
                t.originalProseMirrorDoc)
  ∧ (Transformer.batchTransform
      [ ⟨"A", "A", PMNode.mk "doc" none (some []) none none⟩,
        ⟨"A", "A", PMNode.mk "paragraph" none none none none⟩,
        ⟨"A", "A", PMNode.mk "doc" none (some []) none none⟩ ]).map (fun r => r.success) =
      [true, true, true] := by
  refine ⟨fun requests => ⟨by simp [Transformer.batchTransform], fun i => ?_⟩, rfl⟩
  simp [Transformer.batchTransform]

theorem alloc_inv {mark : Nat} {h0 h : Heap} (cell : HeapCell)
    (hinv : Inv mark h0 h)
    (hch : ∀ cids, cell.content = some cids → ∀ c ∈ cids, mark ≤ c) :
    Inv mark h0 (h.alloc cell).1 ∧ (h.alloc cell).2 = h.next ∧
      mark ≤ (h.alloc cell).2 ∧ h.next < (h.alloc cell).1.next := by
  obtain ⟨hle, hpres, hclosed⟩ := hinv
  refine ⟨⟨?_, ?_, ?_⟩, rfl, hle, by simp [Heap.alloc]⟩
  · simp only [Heap.alloc]
    omega
  · intro id hid
    simp only [Heap.alloc]
    rw [if_neg (by omega)]
    exact hpres id hid
  · intro id c hid hc cids hcids cid hcid
    simp only [Heap.alloc] at hc
    by_cases heq : id = h.next
    · rw [if_pos heq] at hc
      obtain rfl := Option.some.inj hc
      exact hch cids hcids cid hcid
    · rw [if_neg heq] at hc
      exact hclosed id c hid hc cids hcids cid hcid

theorem write_inv {mark : Nat} {h0 h : Heap} (id : Nat) (cell : HeapCell)
    (hinv : Inv mark h0 h) (hid : mark ≤ id)
    (hch : ∀ cids, cell.content = some cids → ∀ c ∈ cids, mark ≤ c) :
    Inv mark h0 (h.write id cell) := by
  obtain ⟨hle, hpres, hclosed⟩ := hinv
  refine ⟨hle, ?_, ?_⟩
  · intro i hi
    simp only [Heap.write]
    rw [if_neg (by omega)]
    exact hpres i hi
  · intro i c hi hc cids hcids cid hcid
    simp only [Heap.write] at hc
    by_cases heq : i = id
    · rw [if_pos heq] at hc
      obtain rfl := Option.some.inj hc
      exact hch cids hcids cid hcid
    · rw [if_neg heq] at hc
      exact hclosed i c hi hc cids hcids cid hcid

theorem allocTokenCells_inv {mark : Nat} {h0 : Heap} :
    ∀ (tokens : List PMNode) (h : Heap), Inv mark h0 h →
      Inv mark h0 (allocTokenCells h tokens).1 ∧
      ∀ c ∈ (allocTokenCells h tokens).2, mark ≤ c := by
  intro tokens
  induction tokens with
  | nil =>
    intro h hinv
    exact ⟨hinv, by simp [allocTokenCells]⟩
  | cons node rest ih =>
    intro h hinv
    have ha := alloc_inv ⟨node.type, node.attrs, none, node.text, node.marks⟩ hinv
      (by intro cids hc; simp at hc)
    obtain ⟨hinv1, _, hmk, _⟩ := ha
    have hr := ih (h.alloc ⟨node.type, node.attrs, none, node.text, node.marks⟩).1 hinv1
    constructor
    · simpa [allocTokenCells] using hr.1
    · intro c hc
      simp only [allocTokenCells] at hc
      rcases List.mem_cons.mp hc with hc | hc
      · subst hc
        exact hmk
      · exact hr.2 c hc

theorem heapBuildInsertedNode_inv {mark : Nat} {h0 h : Heap}
    (operation : MarkdownDiffOperation) (hinv : Inv mark h0 h) :
    Inv mark h0 (heapBuildInsertedNode h operation).1 ∧
      mark ≤ (heapBuildInsertedNode h operation).2 := by
  have ht := allocTokenCells_inv
    (match operation.content with
     | some s => if s = "" then [] else MarkdownToProseMirrorMapper.parseContentToNodes s
     | none => []) h hinv
  have ha := alloc_inv
    (⟨operation.nodeType.getD "paragraph", operation.nodeAttrs,
      some (allocTokenCells h
        (match operation.content with
         | some s => if s = "" then [] else MarkdownToProseMirrorMapper.parseContentToNodes s
         | none => [])).2, none, none⟩ : HeapCell) ht.1
    (by intro cids hc; obtain rfl := Option.some.inj hc; exact ht.2)
  exact ⟨ha.1, ha.2.2.1⟩

theorem heapGetNodeAtPath_ge {mark : Nat} {h : Heap} (hclosed : ClosedAbove mark h) :
    ∀ (path : List Nat) (start res : Nat), mark ≤ start →
      heapGetNodeAtPath h start path = some res → mark ≤ res := by
  intro path
  induction path with
  | nil =>
    intro start res hs hres
    simp only [heapGetNodeAtPath] at hres
    obtain rfl := Option.some.inj hres
    exact hs
  | cons i rest ih =>
    intro start res hs hres
    simp only [heapGetNodeAtPath] at hres
    split at hres
    · rename_i cell hcell
      split at hres
      · rename_i cids hcont
        split at hres
        · rename_i child hchild
          have hcm : mark ≤ child :=
            hclosed start cell hs hcell cids hcont child (List.getElem?_mem hchild)
          exact ih child res hcm hres
        · cases hres
      · cases hres
    · cases hres

theorem cloneList_inv {mark : Nat} {h0 : Heap} :
    ∀ (fuel : Nat) (ids : List Nat) (h : Heap), Inv mark h0 h →
      Inv mark h0 (cloneList fuel h ids).1 ∧
      ∀ newIds, (cloneList fuel h ids).2 = some newIds → ∀ c ∈ newIds, mark ≤ c := by
  intro fuel
  induction fuel with
  | zero =>
    intro ids h hinv
    cases ids with
    | nil =>
      refine ⟨hinv, ?_⟩
      intro newIds hn c hc
      simp only [cloneList] at hn
      obtain rfl := Option.some.inj hn
      simp at hc
    | cons id rest =>
      refine ⟨hinv, ?_⟩
      intro newIds hn
      simp [cloneList] at hn
  | succ n ih =>
    intro ids h hinv
    cases ids with
    | nil =>
      refine ⟨hinv, ?_⟩
      intro newIds hn c hc
      simp only [cloneList] at hn
      obtain rfl := Option.some.inj hn
      simp at hc
    | cons id rest =>
      cases hcell : h.cells id with
      | none =>
        have hres : cloneList (n + 1) h (id :: rest) = (h, none) := by
          simp only [cloneList, hcell]
        rw [hres]
        exact ⟨hinv, by simp⟩
      | some cell =>
        cases hcont : cell.content with
        | none =>
          have ha := alloc_inv ⟨cell.type, cell.attrs, none, cell.text, cell.marks⟩ hinv
            (by intro cids hc; simp at hc)
          obtain ⟨hinv1, _, hmk2, _⟩ := ha
          have hr := ih rest (h.alloc ⟨cell.type, cell.attrs, none, cell.text, cell.marks⟩).1 hinv1
          rcases hrest : cloneList n (h.alloc ⟨cell.type, cell.attrs, none, cell.text, cell.marks⟩).1 rest with ⟨h2, o2⟩
          rw [hrest] at hr
          cases o2 with
          | some newIds2 =>
            have hres : cloneList (n + 1) h (id :: rest) =
                (h2, some ((h.alloc ⟨cell.type, cell.attrs, none, cell.text, cell.marks⟩).2 :: newIds2)) := by
              simp only [cloneList, hcell, hcont, hrest]
            rw [hres]
            refine ⟨hr.1, ?_⟩
            intro newIds hn
            obtain rfl := Option.some.inj hn
            intro c hc
            rcases List.mem_cons.mp hc with hc | hc
            · subst hc
              exact hmk2
            · exact hr.2 newIds2 rfl c hc
          | none =>
            have hres : cloneList (n + 1) h (id :: rest) = (h2, none) := by
              simp only [cloneList, hcell, hcont, hrest]
            rw [hres]
            exact ⟨hr.1, by simp⟩
        | some cids =>
          rcases hchild : cloneList n h cids with ⟨h1, o1⟩
          have hch := ih cids h hinv
          rw [hchild] at hch
          cases o1 with
          | none =>
            have hres : cloneList (n + 1) h (id :: rest) = (h1, none) := by
              simp only [cloneList, hcell, hcont, hchild]
            rw [hres]
            exact ⟨hch.1, by simp⟩
          | some newCids =>
            have hcc : ∀ c ∈ newCids, mark ≤ c := hch.2 newCids rfl
            have ha := alloc_inv ⟨cell.type, cell.attrs, some newCids, cell.text, cell.marks⟩ hch.1
              (by intro cids' hc'; obtain rfl := Option.some.inj hc'; exact hcc)
            obtain ⟨hinv1, _, hmk2, _⟩ := ha
            have hr := ih rest (h1.alloc ⟨cell.type, cell.attrs, some newCids, cell.text, cell.marks⟩).1 hinv1
            rcases hrest : cloneList n (h1.alloc ⟨cell.type, cell.attrs, some newCids, cell.text, cell.marks⟩).1 rest with ⟨h2, o2⟩
            rw [hrest] at hr
            cases o2 with
            | some newIds2 =>
              have hres : cloneList (n + 1) h (id :: rest) =
                  (h2, some ((h1.alloc ⟨cell.type, cell.attrs, some newCids, cell.text, cell.marks⟩).2 :: newIds2)) := by
                simp only [cloneList, hcell, hcont, hchild, hrest]
              rw [hres]
              refine ⟨hr.1, ?_⟩
              intro newIds hn
              obtain rfl := Option.some.inj hn
              intro c hc
              rcases List.mem_cons.mp hc with hc | hc
              · subst hc
                exact hmk2
              · exact hr.2 newIds2 rfl c hc
            | none =>
              have hres : cloneList (n + 1) h (id :: rest) = (h2, none) := by
                simp only [cloneList, hcell, hcont, hchild, hrest]
              rw [hres]
              exact ⟨hr.1, by simp⟩

theorem heapInsertNode_inv {mark : Nat} {h0 h h' : Heap} {rootId : Nat}
    {path : List Nat} {operation : MarkdownDiffOperation}
    (hinv : Inv mark h0 h) (hroot : mark ≤ rootId)
    (happ : heapInsertNode h rootId path operation = some h') :
    Inv mark h0 h' := by
  unfold heapInsertNode at happ
  split at happ
  · cases happ
  · rename_i parentId hresolve
    have hparent : mark ≤ parentId :=
      heapGetNodeAtPath_ge hinv.2.2 path.dropLast rootId parentId hroot hresolve
    split at happ
    · rename_i cell hcell
      split at happ
      · rename_i cids hcont
        obtain rfl := Option.some.inj happ
        have hb := heapBuildInsertedNode_inv operation hinv
        have hchildren : ∀ c ∈ cids, mark ≤ c :=
          hinv.2.2 parentId cell hparent hcell cids hcont
        apply write_inv _ _ hb.1 hparent
        intro cids' hc'
        obtain rfl := Option.some.inj hc'
        intro c hc
        rcases List.mem_append.mp hc with hc | hc
        · rcases List.mem_append.mp hc with hc | hc
          · exact hchildren c (List.mem_of_mem_take hc)
          · simp at hc
            subst hc
            exact hb.2
        · exact hchildren c (List.mem_of_mem_drop hc)
      · obtain rfl := Option.some.inj happ
        exact hinv
    · obtain rfl := Option.some.inj happ
      exact hinv

theorem heapDeleteNode_inv {mark : Nat} {h0 h h' : Heap} {rootId : Nat} {path : List Nat}
    (hinv : Inv mark h0 h) (hroot : mark ≤ rootId)
    (happ : heapDeleteNode h rootId path = some h') :
    Inv mark h0 h' := by
  unfold heapDeleteNode at happ
  split at happ
  · obtain rfl := Option.some.inj happ
    exact hinv
  · split at happ
    · cases happ
    · rename_i parentId hresolve
      have hparent : mark ≤ parentId :=
        heapGetNodeAtPath_ge hinv.2.2 path.dropLast rootId parentId hroot hresolve
      split at happ
      · rename_i cell hcell
        split at happ
        · rename_i cids index hcont hlast
          split at happ
          · obtain rfl := Option.some.inj happ
            apply write_inv _ _ hinv hparent
            intro cids' hc'
            obtain rfl := Option.some.inj hc'
            intro c hc
            exact hinv.2.2 parentId cell hparent hcell cids hcont c
              (List.mem_of_mem_eraseIdx hc)
          · obtain rfl := Option.some.inj happ
            exact hinv
        · obtain rfl := Option.some.inj happ
          exact hinv
      · obtain rfl := Option.some.inj happ
        exact hinv

theorem heapReplaceTextContent_inv {mark : Nat} {h0 h h' : Heap} {rootId : Nat}
    {path : List Nat} {operation : MarkdownDiffOperation}
    (hinv : Inv mark h0 h) (hroot : mark ≤ rootId)
    (happ : heapReplaceTextContent h rootId path operation = some h') :
    Inv mark h0 h' := by
  unfold heapReplaceTextContent at happ
  split at happ
  · cases happ
  · rename_i nodeId hresolve
    have hnode : mark ≤ nodeId :=
      heapGetNodeAtPath_ge hinv.2.2 path rootId nodeId hroot hresolve
    split at happ
    · rename_i cell hcell
      split at happ
      · rename_i cids hcont
        obtain rfl := Option.some.inj happ
        have ht := allocTokenCells_inv
          (MarkdownToProseMirrorMapper.parseContentToNodes (operation.content.getD "")) h hinv
        apply write_inv _ _ ht.1 hnode
        intro cids' hc'
        obtain rfl := Option.some.inj hc'
        exact ht.2
      · obtain rfl := Option.some.inj happ
        exact hinv
    · obtain rfl := Option.some.inj happ
      exact hinv

theorem heapModifyNode_inv {mark : Nat} {h0 h h' : Heap} {rootId : Nat}
    {path : List Nat} {operation : MarkdownDiffOperation}
    (hinv : Inv mark h0 h) (hroot : mark ≤ rootId)
    (happ : heapModifyNode h rootId path operation = some h') :
    Inv mark h0 h' := by
  unfold heapModifyNode at happ
  split at happ
  · cases happ
  · rename_i nodeId hresolve
    have hnode : mark ≤ nodeId :=
      heapGetNodeAtPath_ge hinv.2.2 path rootId nodeId hroot hresolve
    split at happ
    · rename_i cell hcell
      split at happ
      · rename_i newAttrs hattrs
        obtain rfl := Option.some.inj happ
        apply write_inv _ _ hinv hnode
        intro cids' hc'
        have hc'' : cell.content = some cids' := hc'
        exact fun c hc =>
          hinv.2.2 nodeId cell hnode hcell cids' hc'' c hc
      · obtain rfl := Option.some.inj happ
        exact hinv
    · obtain rfl := Option.some.inj happ
      exact hinv

theorem heapApplyOperationCaught_inv {mark : Nat} {h0 h : Heap} {rootId : Nat}
    (operation : MarkdownDiffOperation) (hinv : Inv mark h0 h) (hroot : mark ≤ rootId) :
    Inv mark h0 (heapApplyOperationCaught h rootId operation) := by
  unfold heapApplyOperationCaught
  cases happ : heapApplyOperation h rootId operation with
  | none => exact hinv
  | some h1 =>
    show Inv mark h0 h1
    unfold heapApplyOperation at happ
    simp only [] at happ
    split_ifs at happ
    · exact heapInsertNode_inv hinv hroot happ
    · exact heapDeleteNode_inv hinv hroot happ
    · exact heapReplaceTextContent_inv hinv hroot happ
    · exact heapModifyNode_inv hinv hroot happ
    · obtain rfl := Option.some.inj happ
      exact hinv

theorem heapApplyOps_foldl_inv {mark : Nat} {h0 : Heap} {rootId : Nat}
    (hroot : mark ≤ rootId) :
    ∀ (operations : List MarkdownDiffOperation) (h : Heap), Inv mark h0 h →
      Inv mark h0 (operations.foldl (fun hh op => heapApplyOperationCaught hh rootId op) h) := by
  intro operations
  induction operations with
  | nil =>
    intro h hinv
    simpa using hinv
  | cons op rest ih =>
    intro h hinv
    rw [List.foldl_cons]
    exact ih _ (heapApplyOperationCaught_inv op hinv hroot)

theorem readTreeList_frame {hA hB : Heap} (hbound : hA.Bounded)
    (hpres : PreservesBelow hA.next hA hB) :
    ∀ (fuel : Nat) (ids : List Nat) (vs : List PMNode),
      readTreeList fuel hA ids = some vs → readTreeList fuel hB ids = some vs := by
  intro fuel
  induction fuel with
  | zero =>
    intro ids vs hread
    cases ids with
    | nil => simpa [readTreeList] using hread
    | cons id rest => simp [readTreeList] at hread
  | succ n ih =>
    intro ids vs hread
    cases ids with
    | nil => simpa [readTreeList] using hread
    | cons id rest =>
      simp only [readTreeList] at hread
      split at hread
      · cases hread
      · rename_i cell hcell
        have hlt : id < hA.next := by
          by_contra hge
          rw [hbound id (Nat.le_of_not_lt hge)] at hcell
          cases hcell
        have hcellB : hB.cells id = some cell := by
          rw [hpres id hlt, hcell]
        split at hread
        · rename_i node nodes hnode hrest
          obtain rfl := Option.some.inj hread
          have hrestB := ih rest nodes hrest
          cases hcont : cell.content with
          | none =>
            rw [hcont] at hnode
            obtain rfl := Option.some.inj hnode
            show readTreeList (n + 1) hB (id :: rest) = _
            simp only [readTreeList, hcellB, hcont, hrestB]
            try rfl
          | some cids =>
            rw [hcont] at hnode
            have hnode' : (readTreeList n hA cids).map
                (fun cs => PMNode.mk cell.type cell.attrs (some cs) cell.text cell.marks) =
                some node := hnode
            cases hcs : readTreeList n hA cids with
            | none =>
              rw [hcs] at hnode'
              cases hnode'
            | some cs =>
              rw [hcs] at hnode'
              obtain rfl := Option.some.inj hnode'
              have hcsB := ih cids cs hcs
              show readTreeList (n + 1) hB (id :: rest) = _
              simp only [readTreeList, hcellB, hcont, hcsB, hrestB]
              try rfl
        · cases hread

/-- C6: the applier never mutates the caller's original tree.  Over the
object-heap model, heapApplyOperationsToDocument first deep-clones the
tree rooted at the original id into freshly allocated cells and then
applies every operation through the clone's root, so all writes hit cells
at or above the clone mark; reading the original root afterwards yields
exactly the tree that was there before, for every operation list. -/
theorem applier_preserves_original_tree :
    ∀ (fuel : Nat) (h : Heap) (originalId : Nat)
      (operations : List MarkdownDiffOperation) (v : PMNode),
      h.Bounded →
      readTree fuel h originalId = some v →
      readTree fuel
        (heapApplyOperationsToDocument fuel h originalId operations).1
        originalId = some v := by
  intro fuel h originalId operations v hbound hread
  have hinv0 : Inv h.next h h := by
    refine ⟨Nat.le_refl _, fun id hid => rfl, ?_⟩
    intro id cell hid hc
    rw [hbound id hid] at hc
    cases hc
  have hlist : readTreeList fuel h [originalId] = some [v] := by
    unfold readTree at hread
    cases hl : readTreeList fuel h [originalId] with
    | none => rw [hl] at hread; cases hread
    | some l =>
      rw [hl] at hread
      cases l with
      | nil => cases hread
      | cons n rest =>
        cases rest with
        | nil =>
          obtain rfl := Option.some.inj hread
          rfl
        | cons m rest2 => cases hread
  have hcl := cloneList_inv fuel [originalId] h hinv0
  unfold heapApplyOperationsToDocument
  rcases hclone : cloneList fuel h [originalId] with ⟨h1, o1⟩
  rw [hclone] at hcl
  have frame : ∀ hF : Heap, PreservesBelow h.next h hF →
      readTree fuel hF originalId = some v := by
    intro hF hpres
    unfold readTree
    rw [readTreeList_frame hbound hpres fuel [originalId] [v] hlist]
  cases o1 with
  | none =>
    exact frame h1 hcl.1.2.1
  | some newIds =>
    cases newIds with
    | nil => exact frame h1 hcl.1.2.1
    | cons cid rest =>
      cases rest with
      | nil =>
        have hcid : h.next ≤ cid := hcl.2 [cid] rfl cid (by simp)
        have hfold := heapApplyOps_foldl_inv hcid
          (MarkdownToProseMirrorMapper.sortOps operations) h1 hcl.1
        exact frame _ hfold.2.1
      | cons cid2 rest2 => exact frame h1 hcl.1.2.1

/-- Witness for applier_preserves_original_tree: a concrete two-cell heap
(a doc with one paragraph child) reads back unchanged after the applier
clones it and runs a delete_node operation against the clone. -/
theorem applier_preserves_original_tree_witness :
    readTree 3
      (heapApplyOperationsToDocument 3
        ⟨2, fun n => if n = 0 then some ⟨"doc", none, some [1], none, none⟩
            else if n = 1 then some ⟨"paragraph", none, some [], none, none⟩
            else none⟩
        0 [{ type := "delete_node", markdownPosition := 0, prosemirrorPath := some [0] }]).1
      0 =
      some (PMNode.mk "doc" none
        (some [PMNode.mk "paragraph" none (some []) none none]) none none) :=
  applier_preserves_original_tree 3
    ⟨2, fun n => if n = 0 then some ⟨"doc", none, some [1], none, none⟩
        else if n = 1 then some ⟨"paragraph", none, some [], none, none⟩
        else none⟩
    0 [{ type := "delete_node", markdownPosition := 0, prosemirrorPath := some [0] }]
    (PMNode.mk "doc" none (some [PMNode.mk "paragraph" none (some []) none none]) none none)
    (by
      intro id hid
      have hid' : 2 ≤ id := hid
      have h0 : id ≠ 0 := by omega
      have h1 : id ≠ 1 := by omega
      show (if id = 0 then some (⟨"doc", none, some [1], none, none⟩ : HeapCell)
          else if id = 1 then some (⟨"paragraph", none, some [], none, none⟩ : HeapCell)
          else none) = none
      rw [if_neg h0, if_neg h1])
    rfl
